import Mathlib

/-!
Verification development for the tensor-network quantum circuit simulator.

The simulator's amplitudes are modelled exactly over the field ℚ(√2, i):
every gate in the modelled vocabulary (Hadamard, Pauli X/Y/Z, phase S,
CNOT, integer powers of the i-phase) has entries in this field, so all
state evolution, expectation values, marginal probabilities and traces
are computed exactly, and the spec's numerical tolerances are witnessed
by exact equalities.
-/

/-- Element a + b·√2 of the real quadratic field ℚ(√2). -/
structure Rt2 where
  a : ℚ
  b : ℚ
deriving DecidableEq

namespace Rt2

instance : Zero Rt2 := ⟨⟨0, 0⟩⟩
instance : One Rt2 := ⟨⟨1, 0⟩⟩
instance : Add Rt2 := ⟨fun x y => ⟨x.a + y.a, x.b + y.b⟩⟩
instance : Neg Rt2 := ⟨fun x => ⟨-x.a, -x.b⟩⟩
instance : Mul Rt2 := ⟨fun x y => ⟨x.a * y.a + 2 * (x.b * y.b), x.a * y.b + x.b * y.a⟩⟩
instance : Inv Rt2 :=
  ⟨fun x => ⟨x.a / (x.a * x.a - 2 * (x.b * x.b)), -x.b / (x.a * x.a - 2 * (x.b * x.b))⟩⟩

theorem ext' {x y : Rt2} (h1 : x.a = y.a) (h2 : x.b = y.b) : x = y := by
  cases x; cases y; cases h1; cases h2; rfl

@[simp] theorem zero_a : (0 : Rt2).a = 0 := rfl
@[simp] theorem zero_b : (0 : Rt2).b = 0 := rfl
@[simp] theorem one_a : (1 : Rt2).a = 1 := rfl
@[simp] theorem one_b : (1 : Rt2).b = 0 := rfl
@[simp] theorem add_a (x y : Rt2) : (x + y).a = x.a + y.a := rfl
@[simp] theorem add_b (x y : Rt2) : (x + y).b = x.b + y.b := rfl
@[simp] theorem neg_a (x : Rt2) : (-x).a = -x.a := rfl
@[simp] theorem neg_b (x : Rt2) : (-x).b = -x.b := rfl
@[simp] theorem mul_a (x y : Rt2) : (x * y).a = x.a * y.a + 2 * (x.b * y.b) := rfl
@[simp] theorem mul_b (x y : Rt2) : (x * y).b = x.a * y.b + x.b * y.a := rfl

/-- The square of a rational number is never 2 (irrationality of √2). -/
theorem rat_sq_ne_two (q : ℚ) : q * q ≠ 2 := by
  intro h
  have h1 : (q : ℝ) * (q : ℝ) = 2 := by exact_mod_cast h
  have h2 : Real.sqrt 2 = |(q : ℝ)| := by
    rw [show ((2 : ℝ)) = (q : ℝ) ^ 2 by rw [sq]; exact h1.symm, Real.sqrt_sq_eq_abs]
  have h3 := irrational_sqrt_two
  rw [h2] at h3
  exact h3 ⟨|q|, Rat.cast_abs q⟩

theorem denom_ne_zero {x : Rt2} (hx : x ≠ 0) : x.a * x.a - 2 * (x.b * x.b) ≠ 0 := by
  intro h
  by_cases hb : x.b = 0
  · have ha : x.a * x.a = 0 := by rw [hb] at h; linarith
    have ha0 : x.a = 0 := by
      rcases mul_eq_zero.mp ha with h' | h' <;> exact h'
    exact hx (ext' ha0 hb)
  · have : (x.a / x.b) * (x.a / x.b) = 2 := by
      field_simp
      linarith
    exact rat_sq_ne_two _ this

theorem inv_def (x : Rt2) :
    x⁻¹ = ⟨x.a / (x.a * x.a - 2 * (x.b * x.b)), -x.b / (x.a * x.a - 2 * (x.b * x.b))⟩ := rfl

theorem mul_inv_cancel' {x : Rt2} (hx : x ≠ 0) : x * x⁻¹ = 1 := by
  have hd := denom_ne_zero hx
  apply ext'
  · show x.a * (x.a / _) + 2 * (x.b * (-x.b / _)) = 1
    field_simp
    ring
  · show x.a * (-x.b / _) + x.b * (x.a / _) = 0
    field_simp
    ring

instance field : Field Rt2 :=
  Field.ofMinimalAxioms Rt2
    (fun x y z => ext' (by simp; ring) (by simp; ring))
    (fun x => ext' (by simp) (by simp))
    (fun x => ext' (by simp) (by simp))
    (fun x y z => ext' (by simp; ring) (by simp; ring))
    (fun x y => ext' (by simp; ring) (by simp; ring))
    (fun x => ext' (by simp) (by simp))
    (fun x hx => mul_inv_cancel' hx)
    (by rw [inv_def]; apply ext' <;> simp)
    (fun x y z => ext' (by simp; ring) (by simp; ring))
    ⟨0, 1, by decide⟩

end Rt2

/-- Complex amplitude x + y·i with x, y ∈ ℚ(√2): an element of ℚ(√2, i).
All gate entries of the modelled gate vocabulary live in this field. -/
structure Amp where
  re : Rt2
  im : Rt2
deriving DecidableEq

namespace Amp

instance : Zero Amp := ⟨⟨0, 0⟩⟩
instance : One Amp := ⟨⟨1, 0⟩⟩
instance : Add Amp := ⟨fun x y => ⟨x.re + y.re, x.im + y.im⟩⟩
instance : Neg Amp := ⟨fun x => ⟨-x.re, -x.im⟩⟩
instance : Mul Amp := ⟨fun x y => ⟨x.re * y.re - x.im * y.im, x.re * y.im + x.im * y.re⟩⟩
instance : Inv Amp :=
  ⟨fun z => ⟨z.re * (z.re * z.re + z.im * z.im)⁻¹, -z.im * (z.re * z.re + z.im * z.im)⁻¹⟩⟩

theorem ext2 {x y : Amp} (h1 : x.re = y.re) (h2 : x.im = y.im) : x = y := by
  cases x; cases y; cases h1; cases h2; rfl

@[simp] theorem zero_re : (0 : Amp).re = 0 := rfl
@[simp] theorem zero_im : (0 : Amp).im = 0 := rfl
@[simp] theorem one_re : (1 : Amp).re = 1 := rfl
@[simp] theorem one_im : (1 : Amp).im = 0 := rfl
@[simp] theorem add_re (x y : Amp) : (x + y).re = x.re + y.re := rfl
@[simp] theorem add_im (x y : Amp) : (x + y).im = x.im + y.im := rfl
@[simp] theorem neg_re (x : Amp) : (-x).re = -x.re := rfl
@[simp] theorem neg_im (x : Amp) : (-x).im = -x.im := rfl
@[simp] theorem mul_re (x y : Amp) : (x * y).re = x.re * y.re - x.im * y.im := rfl
@[simp] theorem mul_im (x y : Amp) : (x * y).im = x.re * y.im + x.im * y.re := rfl

theorem sum_sq_eq_zero {x y : Rt2} (h : x * x + y * y = 0) : x = 0 ∧ y = 0 := by
  have ha : (x * x + y * y).a = 0 := by rw [h]; rfl
  simp at ha
  have h1 : x.a = 0 := by nlinarith [sq_nonneg x.a, sq_nonneg x.b, sq_nonneg y.a, sq_nonneg y.b]
  have h2 : x.b = 0 := by nlinarith [sq_nonneg x.a, sq_nonneg x.b, sq_nonneg y.a, sq_nonneg y.b]
  have h3 : y.a = 0 := by nlinarith [sq_nonneg x.a, sq_nonneg x.b, sq_nonneg y.a, sq_nonneg y.b]
  have h4 : y.b = 0 := by nlinarith [sq_nonneg x.a, sq_nonneg x.b, sq_nonneg y.a, sq_nonneg y.b]
  exact ⟨Rt2.ext' h1 h2, Rt2.ext' h3 h4⟩

theorem nsq_ne_zero {z : Amp} (hz : z ≠ 0) : z.re * z.re + z.im * z.im ≠ 0 := by
  intro h
  obtain ⟨h1, h2⟩ := sum_sq_eq_zero h
  exact hz (ext2 h1 h2)

theorem inv_defA (z : Amp) :
    z⁻¹ = ⟨z.re * (z.re * z.re + z.im * z.im)⁻¹, -z.im * (z.re * z.re + z.im * z.im)⁻¹⟩ := rfl

theorem mul_inv_cancelA {z : Amp} (hz : z ≠ 0) : z * z⁻¹ = 1 := by
  have hn := nsq_ne_zero hz
  apply ext2
  · show z.re * (z.re * _) - z.im * (-z.im * _) = 1
    rw [show z.re * (z.re * (z.re * z.re + z.im * z.im)⁻¹) -
        z.im * (-z.im * (z.re * z.re + z.im * z.im)⁻¹) =
        (z.re * z.re + z.im * z.im) * (z.re * z.re + z.im * z.im)⁻¹ by ring]
    exact mul_inv_cancel₀ hn
  · show z.re * (-z.im * _) + z.im * (z.re * _) = 0
    ring

instance field : Field Amp :=
  Field.ofMinimalAxioms Amp
    (fun x y z => ext2 (by simp; ring) (by simp; ring))
    (fun x => ext2 (by simp) (by simp))
    (fun x => ext2 (by simp) (by simp))
    (fun x y z => ext2 (by simp; ring) (by simp; ring))
    (fun x y => ext2 (by simp; ring) (by simp; ring))
    (fun x => ext2 (by simp) (by simp))
    (fun x hx => mul_inv_cancelA hx)
    (by rw [inv_defA]; apply ext2 <;> simp)
    (fun x y z => ext2 (by simp; ring) (by simp; ring))
    ⟨0, 1, by decide⟩

/-- Complex conjugation on the amplitude field. -/
def conjA (z : Amp) : Amp := ⟨z.re, -z.im⟩

@[simp] theorem conjA_re (z : Amp) : (conjA z).re = z.re := rfl
@[simp] theorem conjA_im (z : Amp) : (conjA z).im = -z.im := rfl

/-- Conjugation as a ring homomorphism. -/
def conjHom : Amp →+* Amp where
  toFun := conjA
  map_one' := by apply ext2 <;> simp
  map_mul' x y := by apply ext2 <;> simp <;> ring
  map_zero' := by apply ext2 <;> simp
  map_add' x y := by apply ext2 <;> simp <;> ring

@[simp] theorem conjHom_apply (z : Amp) : conjHom z = conjA z := rfl

/-- The squared modulus |z|² = z·conj z, as an amplitude (it is real). -/
def nsq (z : Amp) : Amp := z * conjA z

/-- Embedding of the rationals into the amplitude field, as a ring hom. -/
def ofRat : ℚ →+* Amp where
  toFun q := ⟨⟨q, 0⟩, 0⟩
  map_one' := rfl
  map_mul' x y := by apply ext2 <;> apply Rt2.ext' <;> simp
  map_zero' := rfl
  map_add' x y := by apply ext2 <;> apply Rt2.ext' <;> simp

/-- The purely rational coordinate of an amplitude, as an additive hom;
used to reduce positivity arguments to ℚ. -/
def ratPart : Amp →+ ℚ where
  toFun z := z.re.a
  map_zero' := rfl
  map_add' x y := rfl

@[simp] theorem ratPart_apply (z : Amp) : ratPart z = z.re.a := rfl

theorem ratPart_nsq (z : Amp) :
    ratPart (nsq z) =
      z.re.a * z.re.a + 2 * (z.re.b * z.re.b) + (z.im.a * z.im.a + 2 * (z.im.b * z.im.b)) := by
  show (z * conjA z).re.a = _
  simp

theorem ratPart_nsq_nonneg (z : Amp) : 0 ≤ ratPart (nsq z) := by
  rw [ratPart_nsq]
  nlinarith [sq_nonneg z.re.a, sq_nonneg z.re.b, sq_nonneg z.im.a, sq_nonneg z.im.b]

theorem eq_zero_of_ratPart_nsq (z : Amp) (h : ratPart (nsq z) = 0) : z = 0 := by
  rw [ratPart_nsq] at h
  have h1 : z.re.a = 0 := by
    nlinarith [sq_nonneg z.re.a, sq_nonneg z.re.b, sq_nonneg z.im.a, sq_nonneg z.im.b]
  have h2 : z.re.b = 0 := by
    nlinarith [sq_nonneg z.re.a, sq_nonneg z.re.b, sq_nonneg z.im.a, sq_nonneg z.im.b]
  have h3 : z.im.a = 0 := by
    nlinarith [sq_nonneg z.re.a, sq_nonneg z.re.b, sq_nonneg z.im.a, sq_nonneg z.im.b]
  have h4 : z.im.b = 0 := by
    nlinarith [sq_nonneg z.re.a, sq_nonneg z.re.b, sq_nonneg z.im.a, sq_nonneg z.im.b]
  exact ext2 (Rt2.ext' h1 h2) (Rt2.ext' h3 h4)

/-- A finite sum of squared moduli vanishes only if every summand's
underlying amplitude vanishes. -/
theorem sum_nsq_eq_zero {ι : Type*} {s : Finset ι} {f : ι → Amp}
    (h : (∑ i ∈ s, nsq (f i)) = 0) : ∀ i ∈ s, f i = 0 := by
  intro i hi
  have hr : (∑ j ∈ s, ratPart (nsq (f j))) = 0 := by
    rw [← map_sum, h, map_zero]
  have hall := (Finset.sum_eq_zero_iff_of_nonneg
    (fun j _ => ratPart_nsq_nonneg (f j))).mp hr
  exact eq_zero_of_ratPart_nsq _ (hall i hi)

end Amp

/-! ## Basis states and wire addressing

A pure state on `n` qubit wires is a function from classical bit
assignments `Fin n → Bool` to amplitudes.  Wire indices arriving from the
public API are plain naturals; `getB`/`updB` read and write a wire of a
basis assignment, defaulting out-of-range reads to `false` (validation of
wire indices is a separate, explicit step, as in the spec). -/

/-- Read wire `q` of a basis assignment (out-of-range reads are `false`). -/
def getB {n : ℕ} (x : Fin n → Bool) (q : ℕ) : Bool :=
  if h : q < n then x ⟨q, h⟩ else false

/-- Overwrite wire `q` of a basis assignment. -/
def updB {n : ℕ} (x : Fin n → Bool) (q : ℕ) (c : Bool) : Fin n → Bool :=
  fun i => if (i : ℕ) = q then c else x i

theorem getB_lt {n : ℕ} (x : Fin n → Bool) {q : ℕ} (h : q < n) : getB x q = x ⟨q, h⟩ :=
  dif_pos h

@[simp] theorem getB_cons_zero {n : ℕ} (b : Bool) (y : Fin n → Bool) :
    getB (Fin.cons b y) 0 = b := by
  rw [getB, dif_pos (Nat.succ_pos n)]
  exact @Fin.cons_zero n (fun _ => Bool) b y

@[simp] theorem getB_cons_succ {n : ℕ} (b : Bool) (y : Fin n → Bool) (q : ℕ) :
    getB (Fin.cons b y) (q + 1) = getB y q := by
  unfold getB
  by_cases h : q < n
  · rw [dif_pos (Nat.succ_lt_succ h), dif_pos h]
    exact @Fin.cons_succ n (fun _ => Bool) b y ⟨q, h⟩
  · rw [dif_neg (fun hc => h (Nat.lt_of_succ_lt_succ hc)), dif_neg h]

@[simp] theorem updB_cons_zero {n : ℕ} (b c : Bool) (y : Fin n → Bool) :
    updB (Fin.cons b y) 0 c = Fin.cons c y := by
  funext i
  refine Fin.cases ?_ (fun j => ?_) i
  · rw [updB]
    simp
  · rw [updB]
    simp

@[simp] theorem updB_cons_succ {n : ℕ} (b c : Bool) (y : Fin n → Bool) (q : ℕ) :
    updB (Fin.cons b y) (q + 1) c = Fin.cons b (updB y q c) := by
  funext i
  refine Fin.cases ?_ (fun j => ?_) i
  · rw [updB]
    simp
  · rw [updB]
    simp [updB, Nat.succ_lt_succ_iff]

/-- Splitting off wire 0 of a basis assignment. -/
def consEquivB (n : ℕ) : Bool × (Fin n → Bool) ≃ (Fin (n + 1) → Bool) where
  toFun p := Fin.cons p.1 p.2
  invFun x := (x 0, fun i => x i.succ)
  left_inv p := by
    obtain ⟨b, y⟩ := p
    refine Prod.ext ?_ ?_
    · exact @Fin.cons_zero n (fun _ => Bool) b y
    · funext i
      exact @Fin.cons_succ n (fun _ => Bool) b y i
  right_inv x := by
    funext i
    refine Fin.cases ?_ (fun j => ?_) i
    · exact @Fin.cons_zero n (fun _ => Bool) (x 0) (fun j => x j.succ)
    · exact @Fin.cons_succ n (fun _ => Bool) (x 0) (fun j => x j.succ) j

theorem sum_pi_succ {n : ℕ} (F : (Fin (n + 1) → Bool) → Amp) :
    (∑ x, F x) = ∑ b : Bool, ∑ y : Fin n → Bool, F (Fin.cons b y) := by
  rw [← Equiv.sum_comp (consEquivB n) F, Fintype.sum_prod_type]
  rfl

theorem sum_pi_zero (F : (Fin 0 → Bool) → Amp) :
    (∑ x, F x) = F (fun i => i.elim0) :=
  Fintype.sum_subsingleton F (fun i => i.elim0)

/-! ## Pure states -/

/-- A pure state of `n` qubit wires: an amplitude for every basis assignment. -/
abbrev StateVec (n : ℕ) := (Fin n → Bool) → Amp

/-- Squared norm of the fully contracted state vector. -/
def normTotal {n : ℕ} (ψ : StateVec n) : Amp := ∑ x, Amp.nsq (ψ x)

/-- Computational basis state concentrated on assignment `y`. -/
def pointState {n : ℕ} (y : Fin n → Bool) : StateVec n :=
  fun x => if x = y then 1 else 0

/-- The default all-zero initial state |0…0⟩. -/
def baseState (n : ℕ) : StateVec n := pointState (fun _ => false)

@[simp] theorem nsq_zero : Amp.nsq 0 = 0 := by
  apply Amp.ext2 <;> apply Rt2.ext' <;> simp [Amp.nsq, Amp.conjA]

@[simp] theorem nsq_one : Amp.nsq 1 = 1 := by
  apply Amp.ext2 <;> apply Rt2.ext' <;> simp [Amp.nsq, Amp.conjA]

theorem normTotal_pointState {n : ℕ} (y : Fin n → Bool) :
    normTotal (pointState y) = 1 := by
  unfold normTotal pointState
  rw [show (∑ x : Fin n → Bool, Amp.nsq (if x = y then 1 else 0)) =
      ∑ x : Fin n → Bool, if x = y then 1 else 0 from
    Finset.sum_congr rfl (fun x _ => by split <;> simp)]
  simp

theorem normTotal_baseState (n : ℕ) : normTotal (baseState n) = 1 :=
  normTotal_pointState _

/-! ## Gate library

The modelled gate vocabulary: identity, Hadamard, the Paulis, the S
phase gate, integer powers of the i-phase rotation, and CNOT.  Every
entry lies in ℚ(√2, i) and every gate is unitary.  Single-qubit matrices
are indexed `(output bit, input bit)`, two-qubit matrices by pairs
`(control, target)`. -/

inductive Gate
  | idg
  | h
  | x
  | y
  | z
  | s
  | rzk (k : ℤ)
  | cnot
deriving DecidableEq

namespace Gate

/-- Number of wires the gate acts on (the gate tensor has 2·arity legs). -/
def arity : Gate → ℕ
  | .cnot => 2
  | _ => 1

/-- The imaginary unit i. -/
def iA : Amp := ⟨0, 1⟩

/-- The amplitude 1/√2 = (1/2)·√2. -/
def rsq2 : Amp := ⟨⟨0, 1/2⟩, 0⟩

/-- Matrix of a single-qubit gate, entry (output, input). -/
def m1 : Gate → Bool → Bool → Amp
  | .idg => fun o j => if o = j then 1 else 0
  | .h => fun o j => if o && j then -rsq2 else rsq2
  | .x => fun o j => if o = j then 0 else 1
  | .y => fun o j => if o = j then 0 else if o then iA else -iA
  | .z => fun o j => if o = j then (if o then -1 else 1) else 0
  | .s => fun o j => if o = j then (if o then iA else 1) else 0
  | .rzk k => fun o j => if o = j then (if o then iA ^ k else 1) else 0
  | .cnot => fun _ _ => 0

/-- Matrix of a two-qubit gate, entry (output pair, input pair);
CNOT flips the target (second) wire when the control (first) wire is set. -/
def m2 : Gate → Bool × Bool → Bool × Bool → Amp
  | .cnot => fun o j => if o = (j.1, xor j.1 j.2) then 1 else 0
  | _ => fun _ _ => 0

end Gate

/-! ## Gate application and circuit running -/

/-- Contract a single-qubit gate matrix into the state at wire `q`. -/
def apply1 {n : ℕ} (M : Bool → Bool → Amp) (q : ℕ) (ψ : StateVec n) : StateVec n :=
  fun x => ∑ b : Bool, M (getB x q) b * ψ (updB x q b)

/-- Contract a two-qubit gate matrix into the state at wires `q`, `r`. -/
def apply2 {n : ℕ} (M : Bool × Bool → Bool × Bool → Amp) (q r : ℕ) (ψ : StateVec n) :
    StateVec n :=
  fun x => ∑ p : Bool × Bool, M (getB x q, getB x r) p * ψ (updB (updB x q p.1) r p.2)

/-- Modelled from the spec: `apply_gate` contracts the gate tensor into
the state network at the given wire legs (the tensorcircuit source
implementing `Circuit.apply_general_gate` is not part of this snapshot).
This is the unchecked application; wire validation is `apply_gate` on
`Circuit` below. -/
def applyOp {n : ℕ} (g : Gate) (ws : List ℕ) (ψ : StateVec n) : StateVec n :=
  match ws with
  | [q] => if g.arity = 1 then apply1 g.m1 q ψ else ψ
  | [q, r] => if g.arity = 2 then apply2 g.m2 q r ψ else ψ
  | _ => ψ

/-- One recorded gate application: the gate and its wire indices. -/
structure Op where
  g : Gate
  wires : List ℕ
deriving DecidableEq

/-- Run a list of recorded gate applications on a state, in order. -/
def runC {n : ℕ} (ops : List Op) (ψ : StateVec n) : StateVec n :=
  ops.foldl (fun s op => applyOp op.g op.wires s) ψ

@[simp] theorem runC_nil {n : ℕ} (ψ : StateVec n) : runC [] ψ = ψ := rfl

@[simp] theorem runC_cons {n : ℕ} (op : Op) (ops : List Op) (ψ : StateVec n) :
    runC (op :: ops) ψ = runC ops (applyOp op.g op.wires ψ) := rfl

theorem runC_append {n : ℕ} (l1 l2 : List Op) (ψ : StateVec n) :
    runC (l1 ++ l2) ψ = runC l2 (runC l1 ψ) :=
  List.foldl_append _ _ _ _

/-! ## Circuits, validation and composition -/

/-- Error taxonomy of the input-contract checks (spec §7): bad wire
indices, gate rank/wire-count mismatch, wire-count mismatch on
composition. -/
inductive SimError
  | indexError
  | rankError
  | composeError
deriving DecidableEq

/-- A circuit: a fixed wire count and the ordered list of applied gates. -/
structure Circuit where
  n : ℕ
  ops : List Op
deriving DecidableEq

/-- The fully contracted state-vector of the circuit, obtained by
replaying its recorded gate applications on |0…0⟩. -/
def Circuit.stateOf (c : Circuit) : StateVec c.n :=
  runC c.ops (baseState c.n)

/-- Modelled from the spec: `apply_gate` validates the wire indices
(an Index error if any is out of range `[0, n)` or duplicated), then the
gate rank against the wire count (a Rank error on mismatch), and only
then records the application.  Errors are returned to the caller at
once; nothing is retried.  The tensorcircuit source of
`Circuit.apply_general_gate` is not part of this snapshot. -/
def apply_gate (c : Circuit) (g : Gate) (ws : List ℕ) : Except SimError Circuit :=
  if ¬ ((∀ q ∈ ws, q < c.n) ∧ ws.Nodup) then .error .indexError
  else if g.arity ≠ ws.length then .error .rankError
  else .ok ⟨c.n, c.ops ++ [⟨g, ws⟩]⟩

/-- Modelled from the spec: `append` composes two circuits over the same
wire count by chaining their gate sequences, and fails if the wire
counts differ. -/
def Circuit.append (c1 c2 : Circuit) : Except SimError Circuit :=
  if c1.n = c2.n then .ok ⟨c1.n, c1.ops ++ c2.ops⟩ else .error .composeError

/-! ## Intermediate representation (qir)

Modelled from the spec §6: an ordered sequence of gate records, each
naming the gate, its wires, and its parameters; `to_qir`/`from_qir`
serialize a circuit and reconstruct it by replaying the records in
order. -/

/-- One record of the intermediate representation. -/
structure QirItem where
  name : String
  wires : List ℕ
  params : List ℚ
deriving DecidableEq

/-- Serialized name of each gate of the vocabulary. -/
def gateName : Gate → String
  | .idg => "i"
  | .h => "h"
  | .x => "x"
  | .y => "y"
  | .z => "z"
  | .s => "s"
  | .rzk _ => "rzk"
  | .cnot => "cnot"

/-- Continuous parameters of each gate of the vocabulary. -/
def gateParams : Gate → List ℚ
  | .rzk k => [(k : ℚ)]
  | _ => []

/-- Recover a gate from its serialized name and parameters. -/
def gateOfIR (nm : String) (ps : List ℚ) : Option Gate :=
  match nm, ps with
  | "i", [] => some .idg
  | "h", [] => some .h
  | "x", [] => some .x
  | "y", [] => some .y
  | "z", [] => some .z
  | "s", [] => some .s
  | "rzk", [p] => if p.den = 1 then some (.rzk p.num) else none
  | "cnot", [] => some .cnot
  | _, _ => none

/-- Modelled from the spec: serialize a circuit to its intermediate
representation. -/
def to_qir (c : Circuit) : List QirItem :=
  c.ops.map fun op => ⟨gateName op.g, op.wires, gateParams op.g⟩

/-- Modelled from the spec: reconstruct a circuit over `n` wires from an
intermediate representation by replaying the gate records in order. -/
def from_qir (n : ℕ) (items : List QirItem) : Option Circuit :=
  (items.mapM fun it => (gateOfIR it.name it.params).map fun g => Op.mk g it.wires).map
    fun ops => Circuit.mk n ops

theorem gateOfIR_gateName (g : Gate) : gateOfIR (gateName g) (gateParams g) = some g := by
  cases g <;> simp [gateName, gateParams, gateOfIR]

/-! ## Lazy cached contraction

Modelled from the spec §3/§9: the dense contracted vector is lazy and
cached; every mutating gate application invalidates the cache; a state
read recomputes and refills the cache only when it is empty. -/

/-- A circuit together with its (optional) cached contracted state. -/
structure CCircuit (n : ℕ) where
  ops : List Op
  cache : Option (StateVec n)

/-- Contract the recorded network from scratch. -/
def contractC (n : ℕ) (ops : List Op) : StateVec n :=
  runC ops (baseState n)

/-- Mutating gate application: records the gate and invalidates the
cached derived state. -/
def applyGateC {n : ℕ} (c : CCircuit n) (g : Gate) (ws : List ℕ) : CCircuit n :=
  ⟨c.ops ++ [⟨g, ws⟩], none⟩

/-- State read: returns the cached vector if present, otherwise
contracts the network and caches the result. -/
def stateC {n : ℕ} (c : CCircuit n) : StateVec n × CCircuit n :=
  match c.cache with
  | some ψ => (ψ, c)
  | none => (contractC n c.ops, ⟨c.ops, some (contractC n c.ops)⟩)

/-- A cache, when present, holds exactly the contraction of the
recorded network. -/
def ValidCache {n : ℕ} (c : CCircuit n) : Prop :=
  ∀ ψ, c.cache = some ψ → ψ = contractC n c.ops

/-! ## Unitarity and norm preservation -/

theorem Amp.conjA_sum {ι : Type*} (s : Finset ι) (f : ι → Amp) :
    Amp.conjA (∑ i ∈ s, f i) = ∑ i ∈ s, Amp.conjA (f i) :=
  map_sum Amp.conjHom f s

theorem Amp.conjA_mul (x y : Amp) : Amp.conjA (x * y) = Amp.conjA x * Amp.conjA y :=
  map_mul Amp.conjHom x y

/-- Unitarity of a matrix indexed by an arbitrary finite basis:
the columns are orthonormal. -/
def unitaryM {B : Type} [Fintype B] [DecidableEq B] (M : B → B → Amp) : Prop :=
  ∀ y y' : B, (∑ b, M b y * Amp.conjA (M b y')) = if y = y' then 1 else 0

/-- Contracting a unitary matrix into a vector preserves the summed
squared modulus. -/
theorem sum_nsq_mulvec {B : Type} [Fintype B] [DecidableEq B] (M : B → B → Amp)
    (hM : unitaryM M) (w : B → Amp) :
    (∑ b, Amp.nsq (∑ y, M b y * w y)) = ∑ y, Amp.nsq (w y) := by
  have expand : ∀ b, Amp.nsq (∑ y, M b y * w y)
      = ∑ y, ∑ y', (M b y * Amp.conjA (M b y')) * (w y * Amp.conjA (w y')) := by
    intro b
    rw [Amp.nsq, Amp.conjA_sum, Finset.sum_mul_sum]
    refine Finset.sum_congr rfl fun y _ => Finset.sum_congr rfl fun y' _ => ?_
    rw [Amp.conjA_mul]
    ring
  calc
    (∑ b, Amp.nsq (∑ y, M b y * w y))
        = ∑ b, ∑ y, ∑ y', (M b y * Amp.conjA (M b y')) * (w y * Amp.conjA (w y')) :=
          Finset.sum_congr rfl fun b _ => expand b
    _ = ∑ y, ∑ y', ∑ b, (M b y * Amp.conjA (M b y')) * (w y * Amp.conjA (w y')) := by
          rw [Finset.sum_comm]
          exact Finset.sum_congr rfl fun y _ => Finset.sum_comm
    _ = ∑ y, ∑ y', (if y = y' then 1 else 0) * (w y * Amp.conjA (w y')) := by
          refine Finset.sum_congr rfl fun y _ => Finset.sum_congr rfl fun y' _ => ?_
          rw [← Finset.sum_mul, hM y y']
    _ = ∑ y, Amp.nsq (w y) := by
          refine Finset.sum_congr rfl fun y _ => ?_
          simp only [ite_mul, one_mul, zero_mul]
          rw [Finset.sum_ite_eq]
          simp [Amp.nsq]

/-- The same, with an arbitrary spectator index that the matrix does not
touch. -/
theorem sum_nsq_mulvec_par {B C : Type} [Fintype B] [Fintype C] [DecidableEq B]
    (M : B → B → Amp) (hM : unitaryM M) (v : B → C → Amp) :
    (∑ p : B × C, Amp.nsq (∑ y, M p.1 y * v y p.2)) = ∑ p : B × C, Amp.nsq (v p.1 p.2) :=
  calc
    (∑ p : B × C, Amp.nsq (∑ y, M p.1 y * v y p.2))
        = ∑ b : B, ∑ c : C, Amp.nsq (∑ y, M b y * v y c) := Fintype.sum_prod_type _
    _ = ∑ c : C, ∑ b : B, Amp.nsq (∑ y, M b y * v y c) := Finset.sum_comm
    _ = ∑ c : C, ∑ y : B, Amp.nsq (v y c) :=
          Finset.sum_congr rfl fun c _ => sum_nsq_mulvec M hM (fun y => v y c)
    _ = ∑ y : B, ∑ c : C, Amp.nsq (v y c) := Finset.sum_comm
    _ = ∑ p : B × C, Amp.nsq (v p.1 p.2) := by rw [Fintype.sum_prod_type]

/-- Splitting a basis assignment at one wire `q < n`. -/
def split1 (n q : ℕ) (hq : q < n) :
    (Fin n → Bool) ≃ Bool × ({ i : Fin n // (i : ℕ) ≠ q } → Bool) where
  toFun x := (x ⟨q, hq⟩, fun j => x j.1)
  invFun p := fun i => if h : (i : ℕ) = q then p.1 else p.2 ⟨i, h⟩
  left_inv x := by
    funext i
    by_cases h : (i : ℕ) = q
    · show (if h : (i : ℕ) = q then x ⟨q, hq⟩ else x i) = x i
      rw [dif_pos h]
      exact congrArg x (Fin.ext h).symm
    · show (if h : (i : ℕ) = q then x ⟨q, hq⟩ else x i) = x i
      rw [dif_neg h]
  right_inv p := by
    obtain ⟨b, f⟩ := p
    refine Prod.ext ?_ ?_
    · show (if h : ((⟨q, hq⟩ : Fin n) : ℕ) = q then b else f ⟨⟨q, hq⟩, h⟩) = b
      rw [dif_pos rfl]
    · funext j
      show (if h : ((j : Fin n) : ℕ) = q then b else f ⟨j, h⟩) = f j
      rw [dif_neg j.2]

theorem split1_getB {n q : ℕ} (hq : q < n) (x : Fin n → Bool) :
    getB x q = (split1 n q hq x).1 :=
  getB_lt x hq

theorem split1_updB {n q : ℕ} (hq : q < n) (x : Fin n → Bool) (b : Bool) :
    updB x q b = (split1 n q hq).symm (b, (split1 n q hq x).2) := by
  funext i
  show (if (i : ℕ) = q then b else x i) = if h : (i : ℕ) = q then b else x i
  by_cases h : (i : ℕ) = q
  · rw [if_pos h, dif_pos h]
  · rw [if_neg h, dif_neg h]

/-- Splitting a basis assignment at two distinct wires `q, r < n`. -/
def split2 (n q r : ℕ) (hq : q < n) (hr : r < n) (hqr : q ≠ r) :
    (Fin n → Bool) ≃ (Bool × Bool) × ({ i : Fin n // (i : ℕ) ≠ q ∧ (i : ℕ) ≠ r } → Bool) where
  toFun x := ((x ⟨q, hq⟩, x ⟨r, hr⟩), fun j => x j.1)
  invFun p := fun i =>
    if h1 : (i : ℕ) = q then p.1.1
    else if h2 : (i : ℕ) = r then p.1.2
    else p.2 ⟨i, h1, h2⟩
  left_inv x := by
    funext i
    show (if h1 : (i : ℕ) = q then x ⟨q, hq⟩ else
        if h2 : (i : ℕ) = r then x ⟨r, hr⟩ else x i) = x i
    by_cases h1 : (i : ℕ) = q
    · rw [dif_pos h1]
      exact congrArg x (Fin.ext h1).symm
    · rw [dif_neg h1]
      by_cases h2 : (i : ℕ) = r
      · rw [dif_pos h2]
        exact congrArg x (Fin.ext h2).symm
      · rw [dif_neg h2]
  right_inv p := by
    obtain ⟨⟨b, c⟩, f⟩ := p
    refine Prod.ext (Prod.ext ?_ ?_) ?_
    · show (if h1 : ((⟨q, hq⟩ : Fin n) : ℕ) = q then b else
        if h2 : ((⟨q, hq⟩ : Fin n) : ℕ) = r then c else f ⟨⟨q, hq⟩, h1, h2⟩) = b
      rw [dif_pos rfl]
    · show (if h1 : ((⟨r, hr⟩ : Fin n) : ℕ) = q then b else
        if h2 : ((⟨r, hr⟩ : Fin n) : ℕ) = r then c else f ⟨⟨r, hr⟩, h1, h2⟩) = c
      rw [dif_neg (fun h1 => hqr h1.symm), dif_pos rfl]
    · funext j
      show (if h1 : ((j : Fin n) : ℕ) = q then b else
        if h2 : ((j : Fin n) : ℕ) = r then c else f ⟨j, h1, h2⟩) = f j
      rw [dif_neg j.2.1, dif_neg j.2.2]

theorem split2_getB1 {n q r : ℕ} (hq : q < n) (hr : r < n) (hqr : q ≠ r) (x : Fin n → Bool) :
    getB x q = (split2 n q r hq hr hqr x).1.1 :=
  getB_lt x hq

theorem split2_getB2 {n q r : ℕ} (hq : q < n) (hr : r < n) (hqr : q ≠ r) (x : Fin n → Bool) :
    getB x r = (split2 n q r hq hr hqr x).1.2 :=
  getB_lt x hr

theorem split2_updB {n q r : ℕ} (hq : q < n) (hr : r < n) (hqr : q ≠ r)
    (x : Fin n → Bool) (b c : Bool) :
    updB (updB x q b) r c = (split2 n q r hq hr hqr).symm ((b, c), (split2 n q r hq hr hqr x).2) := by
  funext i
  show (if (i : ℕ) = r then c else if (i : ℕ) = q then b else x i) =
    if h1 : (i : ℕ) = q then b else if h2 : (i : ℕ) = r then c else x i
  by_cases h1 : (i : ℕ) = q
  · rw [dif_pos h1, if_neg (fun h2 => hqr (h1.symm.trans h2)), if_pos h1]
  · rw [dif_neg h1]
    by_cases h2 : (i : ℕ) = r
    · rw [if_pos h2, dif_pos h2]
    · rw [if_neg h2, dif_neg h2, if_neg h1]

/-- Contracting a single-qubit unitary at a valid wire preserves the
squared norm of the contracted state. -/
theorem normTotal_apply1 {n q : ℕ} (M : Bool → Bool → Amp) (hM : unitaryM M)
    (hq : q < n) (ψ : StateVec n) :
    normTotal (apply1 M q ψ) = normTotal ψ := by
  have key : ∀ p, apply1 M q ψ ((split1 n q hq).symm p) =
      ∑ y : Bool, M p.1 y * ψ ((split1 n q hq).symm (y, p.2)) := by
    intro p
    unfold apply1
    refine Finset.sum_congr rfl fun b _ => ?_
    rw [split1_getB hq, split1_updB hq, Equiv.apply_symm_apply]
  calc
    normTotal (apply1 M q ψ)
        = ∑ p, Amp.nsq (apply1 M q ψ ((split1 n q hq).symm p)) :=
          (Equiv.sum_comp (split1 n q hq).symm _).symm
    _ = ∑ p : Bool × _, Amp.nsq (∑ y : Bool, M p.1 y * ψ ((split1 n q hq).symm (y, p.2))) :=
          Finset.sum_congr rfl fun p _ => by rw [key p]
    _ = ∑ p : Bool × _, Amp.nsq (ψ ((split1 n q hq).symm (p.1, p.2))) :=
          sum_nsq_mulvec_par M hM (fun y c => ψ ((split1 n q hq).symm (y, c)))
    _ = ∑ p, Amp.nsq (ψ ((split1 n q hq).symm p)) :=
          Finset.sum_congr rfl fun p _ => by rw [Prod.mk.eta]
    _ = normTotal ψ := Equiv.sum_comp (split1 n q hq).symm (fun v => Amp.nsq (ψ v))

/-- Contracting a two-qubit unitary at two valid distinct wires
preserves the squared norm of the contracted state. -/
theorem normTotal_apply2 {n q r : ℕ} (M : Bool × Bool → Bool × Bool → Amp) (hM : unitaryM M)
    (hq : q < n) (hr : r < n) (hqr : q ≠ r) (ψ : StateVec n) :
    normTotal (apply2 M q r ψ) = normTotal ψ := by
  have key : ∀ p, apply2 M q r ψ ((split2 n q r hq hr hqr).symm p) =
      ∑ y : Bool × Bool, M p.1 y * ψ ((split2 n q r hq hr hqr).symm (y, p.2)) := by
    intro p
    unfold apply2
    refine Finset.sum_congr rfl fun b _ => ?_
    rw [split2_getB1 hq hr hqr, split2_getB2 hq hr hqr, split2_updB hq hr hqr,
      Equiv.apply_symm_apply]
  calc
    normTotal (apply2 M q r ψ)
        = ∑ p, Amp.nsq (apply2 M q r ψ ((split2 n q r hq hr hqr).symm p)) :=
          (Equiv.sum_comp (split2 n q r hq hr hqr).symm _).symm
    _ = ∑ p : (Bool × Bool) × _,
          Amp.nsq (∑ y : Bool × Bool, M p.1 y * ψ ((split2 n q r hq hr hqr).symm (y, p.2))) :=
          Finset.sum_congr rfl fun p _ => by rw [key p]
    _ = ∑ p : (Bool × Bool) × _, Amp.nsq (ψ ((split2 n q r hq hr hqr).symm (p.1, p.2))) :=
          sum_nsq_mulvec_par M hM (fun y c => ψ ((split2 n q r hq hr hqr).symm (y, c)))
    _ = ∑ p, Amp.nsq (ψ ((split2 n q r hq hr hqr).symm p)) :=
          Finset.sum_congr rfl fun p _ => by rw [Prod.mk.eta]
    _ = normTotal ψ := Equiv.sum_comp (split2 n q r hq hr hqr).symm (fun v => Amp.nsq (ψ v))

theorem Amp.conjA_zero : Amp.conjA 0 = 0 := by
  apply Amp.ext2 <;> simp

theorem Amp.conjA_one : Amp.conjA 1 = 1 := by
  apply Amp.ext2 <;> simp

attribute [simp] Amp.conjA_zero Amp.conjA_one

@[simp] theorem Rt2.two_a : (2 : Rt2).a = 2 := by
  rw [show (2 : Rt2) = 1 + 1 from one_add_one_eq_two.symm]
  rw [Rt2.add_a, Rt2.one_a, one_add_one_eq_two]

@[simp] theorem Rt2.two_b : (2 : Rt2).b = 0 := by
  rw [show (2 : Rt2) = 1 + 1 from one_add_one_eq_two.symm]
  simp

@[simp] theorem Amp.two_re : (2 : Amp).re = 2 := by
  rw [show (2 : Amp) = 1 + 1 from one_add_one_eq_two.symm]
  rw [Amp.add_re, Amp.one_re, one_add_one_eq_two]

@[simp] theorem Amp.two_im : (2 : Amp).im = 0 := by
  rw [show (2 : Amp) = 1 + 1 from one_add_one_eq_two.symm]
  simp

theorem iA_mul_conjA : Gate.iA * Amp.conjA Gate.iA = 1 := by
  apply Amp.ext2 <;> apply Rt2.ext' <;> simp [Gate.iA, Amp.conjA]

theorem conjA_zpow_iA (k : ℤ) :
    Amp.conjA (Gate.iA ^ k) = (Amp.conjA Gate.iA) ^ k :=
  map_zpow₀ Amp.conjHom Gate.iA k

theorem zpow_mul_conj_iA (k : ℤ) : Gate.iA ^ k * Amp.conjA (Gate.iA ^ k) = 1 := by
  rw [conjA_zpow_iA, ← mul_zpow, iA_mul_conjA, one_zpow]

/-- Every single-qubit gate of the vocabulary is unitary. -/
theorem unitary_m1 (g : Gate) (hg : g.arity = 1) : unitaryM g.m1 := by
  cases g
  case cnot => simp [Gate.arity] at hg
  case rzk k =>
    intro y y'
    cases y <;> cases y' <;>
      simp [Gate.m1, Fintype.sum_bool, zpow_mul_conj_iA] <;>
      (apply Amp.ext2 <;> apply Rt2.ext' <;> simp [Amp.conjA])
  all_goals
    intro y y'
    cases y <;> cases y' <;>
      (apply Amp.ext2 <;> apply Rt2.ext' <;>
        simp [Gate.m1, Gate.rsq2, Gate.iA, Fintype.sum_bool, Amp.conjA] <;> norm_num)

/-- Every two-qubit gate of the vocabulary is unitary. -/
theorem unitary_m2 (g : Gate) (hg : g.arity = 2) : unitaryM g.m2 := by
  cases g <;> simp [Gate.arity] at hg
  intro y y'
  obtain ⟨y1, y2⟩ := y
  obtain ⟨z1, z2⟩ := y'
  rw [Fintype.sum_prod_type]
  cases y1 <;> cases y2 <;> cases z1 <;> cases z2 <;>
    (apply Amp.ext2 <;> apply Rt2.ext' <;>
      simp [Gate.m2, Fintype.sum_bool, Amp.conjA, Prod.ext_iff] <;> norm_num)

/-- Validity of one recorded gate application on an `n`-wire circuit:
wires in range, pairwise distinct, and matching the gate's leg count. -/
def OpValid (n : ℕ) (op : Op) : Prop :=
  (∀ q ∈ op.wires, q < n) ∧ op.wires.Nodup ∧ op.g.arity = op.wires.length

theorem arity_cases (g : Gate) : g.arity = 1 ∨ g.arity = 2 := by
  cases g <;> simp [Gate.arity]

/-- A valid gate application preserves the squared norm. -/
theorem normTotal_applyOp {n : ℕ} (g : Gate) (ws : List ℕ)
    (hv : OpValid n ⟨g, ws⟩) (ψ : StateVec n) :
    normTotal (applyOp g ws ψ) = normTotal ψ := by
  obtain ⟨hw, hnd, har⟩ := hv
  match ws, hw, hnd, har with
  | [q], hw, hnd, har =>
    have har' : g.arity = 1 := har
    have hw' : q < n := hw q (by simp)
    rw [applyOp, if_pos har']
    exact normTotal_apply1 g.m1 (unitary_m1 g har') hw' ψ
  | [q, r], hw, hnd, har =>
    have har' : g.arity = 2 := har
    have hq : q < n := hw q (by simp)
    have hr : r < n := hw r (by simp)
    have hqr : q ≠ r := by
      intro he
      subst he
      exact (List.nodup_cons.mp hnd).1 (List.mem_singleton.mpr rfl)
    rw [applyOp, if_pos har']
    exact normTotal_apply2 g.m2 (unitary_m2 g har') hq hr hqr ψ
  | [], hw, hnd, har =>
    have har' : g.arity = 0 := har
    rcases arity_cases g with h1 | h1 <;> omega
  | (q :: r :: t :: rest), hw, hnd, har =>
    have har' : g.arity = rest.length + 3 := by
      have := har
      simp at this
      omega
    rcases arity_cases g with h1 | h1 <;> omega

/-- A sequence of valid gate applications preserves the squared norm. -/
theorem normTotal_runC {n : ℕ} (ops : List Op) (hv : ∀ op ∈ ops, OpValid n op)
    (ψ : StateVec n) : normTotal (runC ops ψ) = normTotal ψ := by
  induction ops generalizing ψ with
  | nil => rfl
  | cons op rest ih =>
    rw [runC_cons, ih (fun o ho => hv o (List.mem_cons_of_mem op ho)),
      normTotal_applyOp op.g op.wires (hv op (List.mem_cons_self op rest)) ψ]

/-! ## Density-matrix engine

The mixed state of `n` wires is a doubled tensor: an amplitude for every
(ket, bra) pair of basis assignments.  Unitary gates act on both sides;
`general_kraus` applies a full channel ρ' = Σᵢ Kᵢ ρ Kᵢ† exactly by
summing over every Kraus branch. -/

abbrev DMat (n : ℕ) := (Fin n → Bool) → (Fin n → Bool) → Amp

/-- Trace of the fully contracted density matrix. -/
def trDM {n : ℕ} (rho : DMat n) : Amp := ∑ x, rho x x

/-- Contract a single-qubit operator into both legs of wire `q`:
ρ ↦ M ρ M†. -/
def dm1 {n : ℕ} (M : Bool → Bool → Amp) (q : ℕ) (rho : DMat n) : DMat n :=
  fun x x' => ∑ b : Bool, ∑ b' : Bool,
    M (getB x q) b * Amp.conjA (M (getB x' q) b') * rho (updB x q b) (updB x' q b')

/-- Contract a two-qubit operator into both legs of wires `q`, `r`. -/
def dm2 {n : ℕ} (M : Bool × Bool → Bool × Bool → Amp) (q r : ℕ) (rho : DMat n) : DMat n :=
  fun x x' => ∑ p : Bool × Bool, ∑ p' : Bool × Bool,
    M (getB x q, getB x r) p * Amp.conjA (M (getB x' q, getB x' r) p') *
      rho (updB (updB x q p.1) r p.2) (updB (updB x' q p'.1) r p'.2)

/-- Unitary gate application on the density-matrix engine. -/
def applyOpDM {n : ℕ} (g : Gate) (ws : List ℕ) (rho : DMat n) : DMat n :=
  match ws with
  | [q] => if g.arity = 1 then dm1 g.m1 q rho else rho
  | [q, r] => if g.arity = 2 then dm2 g.m2 q r rho else rho
  | _ => rho

/-- Modelled from the spec: `general_kraus` applies the full channel
ρ' = Σᵢ Kᵢ ρ Kᵢ† on wire `q` by summing the contraction over every
Kraus branch (the tensorcircuit `DMCircuit.general_kraus` source is not
part of this snapshot). -/
def general_kraus {n : ℕ} (Ks : List (Bool → Bool → Amp)) (q : ℕ) (rho : DMat n) : DMat n :=
  fun x x' => (Ks.map fun Km => dm1 Km q rho x x').sum

/-- Completeness Σᵢ Kᵢ† Kᵢ = I of a single-wire Kraus set. -/
def KrausComplete (Ks : List (Bool → Bool → Amp)) : Prop :=
  ∀ y y' : Bool,
    (Ks.map fun Km => ∑ b : Bool, Amp.conjA (Km b y) * Km b y').sum = if y = y' then 1 else 0

theorem Amp.conjA_listSum (l : List Amp) : Amp.conjA l.sum = (l.map Amp.conjA).sum :=
  map_list_sum Amp.conjHom l

theorem sum_listSum {ι α : Type*} (s : Finset ι) (l : List α) (f : α → ι → Amp) :
    (∑ i ∈ s, (l.map fun a => f a i).sum) = (l.map fun a => ∑ i ∈ s, f a i).sum := by
  induction l with
  | nil => simp
  | cons a t ih =>
    simp only [List.map_cons, List.sum_cons]
    rw [Finset.sum_add_distrib, ih]

/-- Core lemma: a complete Kraus set applied on the `B` tensor factor
preserves the trace, for any spectator factor `C`. -/
theorem tr_kraus_core {B C : Type} [Fintype B] [Fintype C] [DecidableEq B]
    (Ks : List (B → B → Amp))
    (hK : ∀ y y' : B,
      (Ks.map fun Km => ∑ b, Amp.conjA (Km b y) * Km b y').sum = if y = y' then 1 else 0)
    (rho : (B × C) → (B × C) → Amp) :
    (∑ p : B × C,
      (Ks.map fun Km => ∑ y, ∑ y',
        Km p.1 y * Amp.conjA (Km p.1 y') * rho (y, p.2) (y', p.2)).sum)
      = ∑ p : B × C, rho p p := by
  have conjA_conjA : ∀ w : Amp, Amp.conjA (Amp.conjA w) = w := fun w => by
    apply Amp.ext2 <;> simp
  have step1 : ∀ Km : B → B → Amp,
      (∑ p : B × C, ∑ y, ∑ y', Km p.1 y * Amp.conjA (Km p.1 y') * rho (y, p.2) (y', p.2))
        = ∑ y, ∑ y', (∑ b, Km b y * Amp.conjA (Km b y')) * (∑ c, rho (y, c) (y', c)) := by
    intro Km
    have swap : (∑ p : B × C, ∑ y, ∑ y', Km p.1 y * Amp.conjA (Km p.1 y') * rho (y, p.2) (y', p.2))
        = ∑ y, ∑ y', ∑ p : B × C, Km p.1 y * Amp.conjA (Km p.1 y') * rho (y, p.2) (y', p.2) := by
      rw [Finset.sum_comm]
      exact Finset.sum_congr rfl fun y _ => Finset.sum_comm
    rw [swap]
    refine Finset.sum_congr rfl fun y _ => Finset.sum_congr rfl fun y' _ => ?_
    rw [Finset.sum_mul_sum, Fintype.sum_prod_type]
  have conj_orth : ∀ y y' : B, (Ks.map fun Km => ∑ b, Km b y * Amp.conjA (Km b y')).sum
      = if y = y' then 1 else 0 := by
    intro y y'
    have h := congrArg Amp.conjA (hK y y')
    rw [Amp.conjA_listSum, List.map_map] at h
    have rw1 : (Ks.map (Amp.conjA ∘ fun Km => ∑ b, Amp.conjA (Km b y) * Km b y'))
        = Ks.map fun Km => ∑ b, Km b y * Amp.conjA (Km b y') := by
      refine List.map_congr_left fun Km _ => ?_
      rw [Function.comp_apply, Amp.conjA_sum]
      refine Finset.sum_congr rfl fun b _ => ?_
      rw [Amp.conjA_mul, conjA_conjA]
    rw [rw1] at h
    rw [h]
    split <;> simp
  calc
    (∑ p : B × C,
      (Ks.map fun Km => ∑ y, ∑ y',
        Km p.1 y * Amp.conjA (Km p.1 y') * rho (y, p.2) (y', p.2)).sum)
        = (Ks.map fun Km => ∑ p : B × C, ∑ y, ∑ y',
            Km p.1 y * Amp.conjA (Km p.1 y') * rho (y, p.2) (y', p.2)).sum :=
          sum_listSum _ _ _
    _ = (Ks.map fun Km => ∑ y, ∑ y', (∑ b, Km b y * Amp.conjA (Km b y')) *
          (∑ c, rho (y, c) (y', c))).sum :=
          congrArg List.sum (List.map_congr_left fun Km _ => step1 Km)
    _ = ∑ y, (Ks.map fun Km => ∑ y', (∑ b, Km b y * Amp.conjA (Km b y')) *
          (∑ c, rho (y, c) (y', c))).sum :=
          (sum_listSum _ _ _).symm
    _ = ∑ y, ∑ y', (Ks.map fun Km => (∑ b, Km b y * Amp.conjA (Km b y')) *
          (∑ c, rho (y, c) (y', c))).sum :=
          Finset.sum_congr rfl fun y _ => (sum_listSum _ _ _).symm
    _ = ∑ y, ∑ y', (Ks.map fun Km => ∑ b, Km b y * Amp.conjA (Km b y')).sum *
          (∑ c, rho (y, c) (y', c)) :=
          Finset.sum_congr rfl fun y _ => Finset.sum_congr rfl fun y' _ =>
            List.sum_map_mul_right _ _ _
    _ = ∑ y, ∑ y', (if y = y' then 1 else 0) * (∑ c, rho (y, c) (y', c)) := by
          refine Finset.sum_congr rfl fun y _ => Finset.sum_congr rfl fun y' _ => ?_
          rw [conj_orth y y']
    _ = ∑ y, ∑ c, rho (y, c) (y, c) := by
          refine Finset.sum_congr rfl fun y _ => ?_
          simp only [ite_mul, one_mul, zero_mul]
          rw [Finset.sum_ite_eq]
          simp
    _ = ∑ p : B × C, rho p p := by rw [Fintype.sum_prod_type]

@[simp] theorem Amp.conjA_conjA (z : Amp) : Amp.conjA (Amp.conjA z) = z := by
  apply Amp.ext2 <;> simp

/-- Unitarity gives column-completeness Σ_b M†(y,b) M(b,y') = δ. -/
theorem unitary_complete {B : Type} [Fintype B] [DecidableEq B] (M : B → B → Amp)
    (hM : unitaryM M) (y y' : B) :
    (∑ b, Amp.conjA (M b y) * M b y') = if y = y' then 1 else 0 := by
  have h := congrArg Amp.conjA (hM y y')
  rw [Amp.conjA_sum] at h
  rw [show (∑ b, Amp.conjA (M b y * Amp.conjA (M b y'))) =
      ∑ b, Amp.conjA (M b y) * M b y' from
    Finset.sum_congr rfl fun b _ => by rw [Amp.conjA_mul, Amp.conjA_conjA]] at h
  rw [h]
  split <;> simp

theorem KrausComplete_singleton {M : Bool → Bool → Amp} (hM : unitaryM M) :
    KrausComplete [M] := by
  intro y y'
  simp only [List.map_cons, List.map_nil, List.sum_cons, List.sum_nil, add_zero]
  exact unitary_complete M hM y y'

/-- A complete single-wire Kraus channel applied at a valid wire
preserves the trace of the density matrix. -/
theorem trDM_general_kraus {n q : ℕ} (Ks : List (Bool → Bool → Amp)) (hq : q < n)
    (hK : KrausComplete Ks) (rho : DMat n) :
    trDM (general_kraus Ks q rho) = trDM rho := by
  have key : ∀ p, general_kraus Ks q rho ((split1 n q hq).symm p) ((split1 n q hq).symm p) =
      (Ks.map fun Km => ∑ b : Bool, ∑ b' : Bool,
        Km p.1 b * Amp.conjA (Km p.1 b') *
          rho ((split1 n q hq).symm (b, p.2)) ((split1 n q hq).symm (b', p.2))).sum := by
    intro p
    unfold general_kraus
    refine congrArg List.sum (List.map_congr_left fun Km _ => ?_)
    unfold dm1
    refine Finset.sum_congr rfl fun b _ => Finset.sum_congr rfl fun b' _ => ?_
    rw [split1_getB hq, split1_updB hq, split1_updB hq, Equiv.apply_symm_apply]
  calc
    trDM (general_kraus Ks q rho)
        = ∑ p, general_kraus Ks q rho ((split1 n q hq).symm p) ((split1 n q hq).symm p) :=
          (Equiv.sum_comp (split1 n q hq).symm
            (fun v => general_kraus Ks q rho v v)).symm
    _ = ∑ p : Bool × _, (Ks.map fun Km => ∑ b : Bool, ∑ b' : Bool,
          Km p.1 b * Amp.conjA (Km p.1 b') *
            rho ((split1 n q hq).symm (b, p.2)) ((split1 n q hq).symm (b', p.2))).sum :=
          Finset.sum_congr rfl fun p _ => key p
    _ = ∑ p : Bool × _,
          rho ((split1 n q hq).symm (p.1, p.2)) ((split1 n q hq).symm (p.1, p.2)) :=
          tr_kraus_core Ks hK
            (fun u v => rho ((split1 n q hq).symm u) ((split1 n q hq).symm v))
    _ = ∑ p, rho ((split1 n q hq).symm p) ((split1 n q hq).symm p) :=
          Finset.sum_congr rfl fun p _ => by rw [Prod.mk.eta]
    _ = trDM rho := Equiv.sum_comp (split1 n q hq).symm (fun v => rho v v)

/-- A single-qubit unitary applied on the density-matrix engine at a
valid wire preserves the trace. -/
theorem trDM_dm1 {n q : ℕ} (M : Bool → Bool → Amp) (hM : unitaryM M) (hq : q < n)
    (rho : DMat n) : trDM (dm1 M q rho) = trDM rho := by
  have hsingle : dm1 M q rho = general_kraus [M] q rho := by
    funext x x'
    simp [general_kraus]
  rw [hsingle]
  exact trDM_general_kraus [M] hq (KrausComplete_singleton hM) rho

/-- A two-qubit unitary applied on the density-matrix engine at two
valid distinct wires preserves the trace. -/
theorem trDM_dm2 {n q r : ℕ} (M : Bool × Bool → Bool × Bool → Amp) (hM : unitaryM M)
    (hq : q < n) (hr : r < n) (hqr : q ≠ r) (rho : DMat n) :
    trDM (dm2 M q r rho) = trDM rho := by
  have hK : ∀ y y' : Bool × Bool,
      (([M].map fun Km => ∑ b, Amp.conjA (Km b y) * Km b y').sum) = if y = y' then 1 else 0 := by
    intro y y'
    simp only [List.map_cons, List.map_nil, List.sum_cons, List.sum_nil, add_zero]
    exact unitary_complete M hM y y'
  have key : ∀ p, dm2 M q r rho ((split2 n q r hq hr hqr).symm p) ((split2 n q r hq hr hqr).symm p)
      = ([M].map fun Km => ∑ b : Bool × Bool, ∑ b' : Bool × Bool,
          Km p.1 b * Amp.conjA (Km p.1 b') *
            rho ((split2 n q r hq hr hqr).symm (b, p.2))
              ((split2 n q r hq hr hqr).symm (b', p.2))).sum := by
    intro p
    simp only [List.map_cons, List.map_nil, List.sum_cons, List.sum_nil, add_zero]
    unfold dm2
    refine Finset.sum_congr rfl fun b _ => Finset.sum_congr rfl fun b' _ => ?_
    rw [split2_getB1 hq hr hqr, split2_getB2 hq hr hqr, split2_updB hq hr hqr,
      split2_updB hq hr hqr, Equiv.apply_symm_apply]
  calc
    trDM (dm2 M q r rho)
        = ∑ p, dm2 M q r rho ((split2 n q r hq hr hqr).symm p)
            ((split2 n q r hq hr hqr).symm p) :=
          (Equiv.sum_comp (split2 n q r hq hr hqr).symm (fun v => dm2 M q r rho v v)).symm
    _ = ∑ p : (Bool × Bool) × _, ([M].map fun Km => ∑ b : Bool × Bool, ∑ b' : Bool × Bool,
          Km p.1 b * Amp.conjA (Km p.1 b') *
            rho ((split2 n q r hq hr hqr).symm (b, p.2))
              ((split2 n q r hq hr hqr).symm (b', p.2))).sum :=
          Finset.sum_congr rfl fun p _ => key p
    _ = ∑ p : (Bool × Bool) × _,
          rho ((split2 n q r hq hr hqr).symm (p.1, p.2))
            ((split2 n q r hq hr hqr).symm (p.1, p.2)) :=
          tr_kraus_core [M] hK
            (fun u v => rho ((split2 n q r hq hr hqr).symm u) ((split2 n q r hq hr hqr).symm v))
    _ = ∑ p, rho ((split2 n q r hq hr hqr).symm p) ((split2 n q r hq hr hqr).symm p) :=
          Finset.sum_congr rfl fun p _ => by rw [Prod.mk.eta]
    _ = trDM rho := Equiv.sum_comp (split2 n q r hq hr hqr).symm (fun v => rho v v)

/-- A valid unitary gate application preserves the trace on the
density-matrix engine. -/
theorem trDM_applyOpDM {n : ℕ} (g : Gate) (ws : List ℕ)
    (hv : OpValid n ⟨g, ws⟩) (rho : DMat n) :
    trDM (applyOpDM g ws rho) = trDM rho := by
  obtain ⟨hw, hnd, har⟩ := hv
  match ws, hw, hnd, har with
  | [q], hw, hnd, har =>
    have har' : g.arity = 1 := har
    rw [applyOpDM, if_pos har']
    exact trDM_dm1 g.m1 (unitary_m1 g har') (hw q (by simp)) rho
  | [q, r], hw, hnd, har =>
    have har' : g.arity = 2 := har
    have hqr : q ≠ r := by
      intro he
      subst he
      exact (List.nodup_cons.mp hnd).1 (List.mem_singleton.mpr rfl)
    rw [applyOpDM, if_pos har']
    exact trDM_dm2 g.m2 (unitary_m2 g har') (hw q (by simp)) (hw r (by simp)) hqr rho
  | [], hw, hnd, har =>
    have har' : g.arity = 0 := har
    rcases arity_cases g with h1 | h1 <;> omega
  | (q :: r :: t :: rest), hw, hnd, har =>
    have har' : g.arity = rest.length + 3 := by
      have := har
      simp at this
      omega
    rcases arity_cases g with h1 | h1 <;> omega

/-- Run a list of recorded gate applications on a density matrix. -/
def runDM {n : ℕ} (ops : List Op) (rho : DMat n) : DMat n :=
  ops.foldl (fun s op => applyOpDM op.g op.wires s) rho

/-- A sequence of valid gate applications preserves the trace. -/
theorem trDM_runDM {n : ℕ} (ops : List Op) (hv : ∀ op ∈ ops, OpValid n op)
    (rho : DMat n) : trDM (runDM ops rho) = trDM rho := by
  induction ops generalizing rho with
  | nil => rfl
  | cons op rest ih =>
    show trDM (runDM rest (applyOpDM op.g op.wires rho)) = trDM rho
    rw [ih (fun o ho => hv o (List.mem_cons_of_mem op ho)),
      trDM_applyOpDM op.g op.wires (hv op (List.mem_cons_self op rest)) rho]

/-! ## Post-selection / projective measurement and renormalization -/

/-- Modelled from the spec: projecting the pure state onto outcome `b`
of wire `q` (the unnormalized collapsed network). -/
def postselect {n : ℕ} (q : ℕ) (b : Bool) (ψ : StateVec n) : StateVec n :=
  fun x => if getB x q = b then ψ x else 0

/-- Modelled from the spec: the mandated renormalization step after a
collapsing measurement — dividing the retained network by the norm `r`
of the projected state. -/
def renormPS {n : ℕ} (r : Amp) (ψ : StateVec n) : StateVec n :=
  fun x => ψ x * r⁻¹

theorem Amp.conjA_ne_zero {r : Amp} (hr : r ≠ 0) : Amp.conjA r ≠ 0 := by
  intro h
  apply hr
  rw [← Amp.conjA_conjA r, h, Amp.conjA_zero]

theorem Amp.conjA_inv (r : Amp) : Amp.conjA r⁻¹ = (Amp.conjA r)⁻¹ :=
  map_inv₀ Amp.conjHom r

/-- After a post-selection, dividing by any exact square root `r` of the
retained squared norm restores unit normalization. -/
theorem normTotal_renorm_postselect {n : ℕ} (q : ℕ) (b : Bool) (ψ : StateVec n)
    (r : Amp) (hr : r ≠ 0) (hr2 : Amp.conjA r * r = normTotal (postselect q b ψ)) :
    normTotal (renormPS r (postselect q b ψ)) = 1 := by
  unfold normTotal renormPS
  rw [show (∑ x, Amp.nsq (postselect q b ψ x * r⁻¹))
      = ∑ x, Amp.nsq (postselect q b ψ x) * (r⁻¹ * Amp.conjA r⁻¹) from
    Finset.sum_congr rfl fun x _ => by rw [Amp.nsq, Amp.nsq, Amp.conjA_mul]; ring]
  rw [← Finset.sum_mul]
  rw [show (∑ x, Amp.nsq (postselect q b ψ x)) = Amp.conjA r * r from hr2.symm]
  rw [Amp.conjA_inv]
  rw [show Amp.conjA r * r * (r⁻¹ * (Amp.conjA r)⁻¹)
      = (r * r⁻¹) * (Amp.conjA r * (Amp.conjA r)⁻¹) from by ring]
  rw [mul_inv_cancel₀ hr, mul_inv_cancel₀ (Amp.conjA_ne_zero hr), mul_one]

/-- Modelled from the spec: projecting the density matrix onto outcome
`b` of wire `q` (both ket and bra legs), unnormalized. -/
def projectDM {n : ℕ} (q : ℕ) (b : Bool) (rho : DMat n) : DMat n :=
  fun x x' => if getB x q = b ∧ getB x' q = b then rho x x' else 0

/-- Modelled from the spec: projective measurement on the density-matrix
engine — project, then renormalize by the retained trace. -/
def measureDM {n : ℕ} (q : ℕ) (b : Bool) (rho : DMat n) : DMat n :=
  fun x x' => projectDM q b rho x x' * (trDM (projectDM q b rho))⁻¹

/-- Projective measurement renormalizes the density matrix to unit
trace whenever the retained outcome has nonzero probability. -/
theorem trDM_measureDM {n : ℕ} (q : ℕ) (b : Bool) (rho : DMat n)
    (ht : trDM (projectDM q b rho) ≠ 0) :
    trDM (measureDM q b rho) = 1 := by
  show (∑ x, projectDM q b rho x x * (trDM (projectDM q b rho))⁻¹) = 1
  rw [← Finset.sum_mul]
  exact mul_inv_cancel₀ ht

/-! ## Sequential conditional sampling -/

/-- Modelled from the spec: the marginal weight of the event "the first
`j` wires carry the outcomes prescribed by `x`": the summed squared
modulus of every amplitude agreeing with `x` on wires `< j`. -/
def marg {n : ℕ} (ψ : StateVec n) (j : ℕ) (x : Fin n → Bool) : Amp :=
  ∑ x', if ∀ i : Fin n, (i : ℕ) < j → x' i = x i then Amp.nsq (ψ x') else 0

/-- Modelled from the spec: sequential conditional sampling
(`perfect_sampling`/`sample`): the joint probability assigned to a full
outcome `x` is the product, in wire order, of the conditional
probability of each wire's outcome given the already-fixed wires (the
tensorcircuit `perfect_sampling` source is not part of this snapshot). -/
def seqProb {n : ℕ} (ψ : StateVec n) (x : Fin n → Bool) : Amp :=
  ∏ j ∈ Finset.range n, (marg ψ (j + 1) x / marg ψ j x)

theorem marg_zero {n : ℕ} (ψ : StateVec n) (x : Fin n → Bool) :
    marg ψ 0 x = normTotal ψ := by
  unfold marg normTotal
  refine Finset.sum_congr rfl fun x' _ => ?_
  rw [if_pos (fun i hi => absurd hi (Nat.not_lt_zero _))]

theorem marg_full {n : ℕ} (ψ : StateVec n) (x : Fin n → Bool) :
    marg ψ n x = Amp.nsq (ψ x) := by
  unfold marg
  rw [show (fun x' => if ∀ i : Fin n, (i : ℕ) < n → x' i = x i then Amp.nsq (ψ x') else 0)
      = fun x' => if x' = x then Amp.nsq (ψ x') else 0 from ?_]
  · rw [Finset.sum_ite_eq' Finset.univ x (fun x' => Amp.nsq (ψ x'))]
    simp
  · funext x'
    congr 1
    refine propext ⟨fun hall => funext fun i => hall i i.2, fun he i _ => ?_⟩
    rw [he]

theorem marg_mono_zero {n : ℕ} (ψ : StateVec n) (j : ℕ) (x : Fin n → Bool)
    (hz : marg ψ j x = 0) : marg ψ (j + 1) x = 0 := by
  have hz' : (∑ x' ∈ Finset.univ.filter
      (fun x' => ∀ i : Fin n, (i : ℕ) < j → x' i = x i), Amp.nsq (ψ x')) = 0 := by
    rw [Finset.sum_filter]
    exact hz
  have hvanish := Amp.sum_nsq_eq_zero hz'
  unfold marg
  refine Finset.sum_eq_zero fun x' _ => ?_
  by_cases hc : ∀ i : Fin n, (i : ℕ) < j + 1 → x' i = x i
  · rw [if_pos hc]
    have hmem : x' ∈ Finset.univ.filter (fun x' => ∀ i : Fin n, (i : ℕ) < j → x' i = x i) := by
      rw [Finset.mem_filter]
      exact ⟨Finset.mem_univ x', fun i hi => hc i (Nat.lt_succ_of_lt hi)⟩
    rw [hvanish x' hmem, nsq_zero]
  · rw [if_neg hc]

theorem seqProb_upto {n : ℕ} (ψ : StateVec n) (x : Fin n → Bool)
    (hψ : normTotal ψ = 1) (t : ℕ) :
    (∏ j ∈ Finset.range t, (marg ψ (j + 1) x / marg ψ j x)) = marg ψ t x := by
  induction t with
  | zero =>
    rw [Finset.range_zero, Finset.prod_empty, marg_zero, hψ]
  | succ t ih =>
    rw [Finset.prod_range_succ, ih]
    by_cases hz : marg ψ t x = 0
    · rw [hz, marg_mono_zero ψ t x hz]
      simp
    · rw [mul_comm, div_mul_cancel₀ _ hz]

/-- The sequential sampler reproduces the Born-rule joint distribution
exactly, for every normalized state and every outcome. -/
theorem seqProb_eq_nsq {n : ℕ} (ψ : StateVec n) (x : Fin n → Bool)
    (hψ : normTotal ψ = 1) : seqProb ψ x = Amp.nsq (ψ x) := by
  rw [seqProb, seqProb_upto ψ x hψ n, marg_full]

/-! ## MPO / QuOperator layer

A Pauli-string-sum Hamiltonian, its directly constructed dense operator,
its conversion to a matrix-product operator with one bond value per
term, and the contraction of an MPO back to a dense operator. -/

/-- A weighted sum of `m` Pauli strings over `n` sites
(letters 0 = I, 1 = X, 2 = Y, 3 = Z). -/
structure PauliSum (n : ℕ) where
  m : ℕ
  w : Fin m → ℚ
  str : Fin m → Fin n → Fin 4

/-- The four single-site Pauli matrices. -/
def pauliMat : Fin 4 → Bool → Bool → Amp
  | 0 => Gate.m1 .idg
  | 1 => Gate.m1 .x
  | 2 => Gate.m1 .y
  | 3 => Gate.m1 .z

/-- Directly constructed dense matrix of a Pauli-string sum. -/
def denseOf {n : ℕ} (H : PauliSum n) : (Fin n → Bool) → (Fin n → Bool) → Amp :=
  fun xo xi => ∑ t : Fin H.m, Amp.ofRat (H.w t) * ∏ i : Fin n, pauliMat (H.str t i) (xo i) (xi i)

/-- A matrix-product operator over `n` sites with bond index type `B`:
boundary vectors and a rank-4 tensor per site (bond-in, bond-out,
physical-out, physical-in). -/
structure MPO (n : ℕ) (B : Type) where
  l : B → Amp
  t : Fin n → B → B → Bool → Bool → Amp
  r : B → Amp

/-- Contract an MPO back into its dense operator: sum over every bond
path of the boundary weights times the chain of site tensors. -/
def MPO.contract {n : ℕ} {B : Type} [Fintype B] (W : MPO n B) :
    (Fin n → Bool) → (Fin n → Bool) → Amp :=
  fun xo xi => ∑ path : Fin (n + 1) → B,
    W.l (path 0) * (∏ i : Fin n, W.t i (path i.castSucc) (path i.succ) (xo i) (xi i)) *
      W.r (path (Fin.last n))

/-- Modelled from the spec: conversion of a Pauli-string sum to MPO form
(one bond value per term, every site tensor diagonal in the bond, the
weight carried by the left boundary; the tensorcircuit
`quantum.PauliStringSum2MPO` source is not part of this snapshot). -/
def toMPO {n : ℕ} (H : PauliSum n) : MPO n (Fin H.m) where
  l := fun a => Amp.ofRat (H.w a)
  t := fun i a b o j => if a = b then pauliMat (H.str a i) o j else 0
  r := fun _ => 1

theorem constPath_eq {n : ℕ} {B : Type} (path : Fin (n + 1) → B)
    (h : ∀ i : Fin n, path i.castSucc = path i.succ) :
    ∀ j : Fin (n + 1), path j = path 0 := by
  intro j
  induction j using Fin.induction with
  | zero => rfl
  | succ i ih =>
    rw [← h i, ih]

/-- Contracting the MPO obtained from a Pauli-string sum reproduces the
directly constructed dense matrix exactly. -/
theorem contract_toMPO {n : ℕ} (H : PauliSum n) (xo xi : Fin n → Bool) :
    (toMPO H).contract xo xi = denseOf H xo xi := by
  classical
  unfold MPO.contract toMPO denseOf
  dsimp only
  rw [← Finset.sum_filter_of_ne
    (p := fun path : Fin (n + 1) → Fin H.m => ∀ i : Fin n, path i.castSucc = path i.succ)
    (fun path _ hne => by
      by_contra hnc
      obtain ⟨i, hi⟩ := not_forall.mp hnc
      have hzero : (∏ i' : Fin n, if path i'.castSucc = path i'.succ
          then pauliMat (H.str (path i'.castSucc) i') (xo i') (xi i') else 0) = 0 :=
        Finset.prod_eq_zero (Finset.mem_univ i) (if_neg hi)
      exact hne (by rw [hzero, mul_zero, zero_mul]))]
  refine Finset.sum_bij' (fun path _ => path 0) (fun a _ => fun _ => a) ?_ ?_ ?_ ?_ ?_
  · intro a _
    exact Finset.mem_univ _
  · intro a _
    rw [Finset.mem_filter]
    exact ⟨Finset.mem_univ _, fun i => rfl⟩
  · intro path hpath
    rw [Finset.mem_filter] at hpath
    funext j
    exact (constPath_eq path hpath.2 j).symm
  · intro a _
    rfl
  · intro path hpath
    rw [Finset.mem_filter] at hpath
    have hc := constPath_eq path hpath.2
    rw [show (∏ i : Fin n, if path i.castSucc = path i.succ
        then pauliMat (H.str (path i.castSucc) i) (xo i) (xi i) else 0)
        = ∏ i : Fin n, pauliMat (H.str (path 0) i) (xo i) (xi i) from
      Finset.prod_congr rfl fun i _ => by rw [if_pos (hpath.2 i), hc i.castSucc]]
    rw [mul_one]

/-! ## Stochastic (unitary_kraus) versus exact (general_kraus) noise -/

/-- Density matrix |ψ⟩⟨ψ| of a pure state. -/
def pureDM {n : ℕ} (ψ : StateVec n) : DMat n :=
  fun x x' => ψ x * Amp.conjA (ψ x')

/-- The |0…0⟩⟨0…0| initial density matrix. -/
def baseDM (n : ℕ) : DMat n := pureDM (baseState n)

/-- Conjugating a pure-state projector by a single-site operator gives
the projector of the transformed pure state. -/
theorem dm1_pureDM {n : ℕ} (M : Bool → Bool → Amp) (q : ℕ) (ψ : StateVec n) :
    dm1 M q (pureDM ψ) = pureDM (apply1 M q ψ) := by
  funext x x'
  unfold dm1 pureDM apply1
  rw [Amp.conjA_sum, Finset.sum_mul_sum]
  refine Finset.sum_congr rfl fun b _ => Finset.sum_congr rfl fun b' _ => ?_
  rw [Amp.conjA_mul]
  ring

/-- ⟨Z₀⟩ of a pure 2-qubit state. -/
def expZ0 (ψ : StateVec 2) : Amp :=
  ∑ x : Fin 2 → Bool, (if x 0 then -1 else 1) * Amp.nsq (ψ x)

/-- ⟨Z₀⟩ of a 2-qubit density matrix. -/
def expZ0dm (rho : DMat 2) : Amp :=
  ∑ x : Fin 2 → Bool, (if x 0 then -1 else 1) * rho x x

theorem expZ0dm_pureDM (ψ : StateVec 2) : expZ0dm (pureDM ψ) = expZ0 ψ := rfl

/-- Modelled from the spec: the exact depolarizing channel with
px = py = pz = 1/10 on wire `q`, applied via `general_kraus` with Kraus
set {√(7/10)·I, √(1/10)·X, √(1/10)·Y, √(1/10)·Z}: the root scalars enter
the contraction ρ' = Σᵢ Kᵢ ρ Kᵢ† only through their squares, so each
branch contributes its rational probability times the conjugated state. -/
def depolGK (q : ℕ) (rho : DMat 2) : DMat 2 :=
  fun x x' =>
    Amp.ofRat (7/10) * dm1 (Gate.m1 .idg) q rho x x' +
    Amp.ofRat (1/10) * dm1 (Gate.m1 .x) q rho x x' +
    Amp.ofRat (1/10) * dm1 (Gate.m1 .y) q rho x x' +
    Amp.ofRat (1/10) * dm1 (Gate.m1 .z) q rho x x'

/-- Modelled from the spec: `unitary_kraus` branch selection for the
depolarizing channel — the externally supplied status value in `[0,1)`
selects the unique branch whose cumulative-probability window contains
it (windows 0.7 / 0.1 / 0.1 / 0.1 for I / X / Y / Z). -/
def pickBranch (s : ℚ) : ℕ :=
  if s < 7/10 then 0 else if s < 8/10 then 1 else if s < 9/10 then 2 else 3

/-- The branch unitaries of the depolarizing channel. -/
def branchGate (i : ℕ) : Gate := [Gate.idg, Gate.x, Gate.y, Gate.z].getD i Gate.idg

/-- Modelled from the spec: one `unitary_kraus` trajectory on the
2-qubit |00⟩ state with the given status draw: the selected branch is
applied as a unitary on wire 0, keeping the state pure. -/
def trajState (s : ℚ) : StateVec 2 :=
  applyOp (branchGate (pickBranch s)) [0] (baseState 2)

/-- The Monte Carlo estimate: the average of ⟨Z₀⟩ over `N` trajectories
driven by the equidistributed status draws j/N, j < N. -/
def trajAvg (N : ℕ) : Amp :=
  (∑ j ∈ Finset.range N, expZ0 (trajState ((j : ℚ) / (N : ℚ)))) * (Amp.ofRat (N : ℚ))⁻¹

@[simp] theorem baseState_zero (x : Fin 0 → Bool) : baseState 0 x = 1 := by
  unfold baseState pointState
  rw [if_pos (Subsingleton.elim _ _)]

@[simp] theorem baseState_cons {n : ℕ} (b : Bool) (y : Fin n → Bool) :
    baseState (n + 1) (Fin.cons b y) = if b then 0 else baseState n y := by
  unfold baseState pointState
  cases b
  · by_cases hy : y = fun _ : Fin n => false
    · rw [if_pos (show Fin.cons false y = fun _ : Fin (n + 1) => false from by
        subst hy
        funext i
        refine Fin.cases ?_ (fun j => ?_) i
        · exact Fin.cons_zero _ _
        · exact Fin.cons_succ _ _ j)]
      simp [hy]
    · rw [if_neg (show Fin.cons false y ≠ fun _ : Fin (n + 1) => false from fun hcf =>
        hy (funext fun i => by
          have := congrFun hcf i.succ
          rwa [Fin.cons_succ] at this))]
      simp [hy]
  · have hne : Fin.cons true y ≠ fun _ : Fin (n + 1) => false := by
      intro hcf
      have := congrFun hcf 0
      rw [Fin.cons_zero] at this
      exact Bool.noConfusion this
    rw [if_neg hne]
    simp

@[simp] theorem nsq_neg (z : Amp) : Amp.nsq (-z) = Amp.nsq z := by
  apply Amp.ext2 <;> apply Rt2.ext' <;> simp [Amp.nsq, Amp.conjA] <;> ring

@[simp] theorem nsq_iA : Amp.nsq Gate.iA = 1 := by
  apply Amp.ext2 <;> apply Rt2.ext' <;> simp [Amp.nsq, Amp.conjA, Gate.iA]

theorem expZ0_apply1_idg : expZ0 (apply1 (Gate.m1 .idg) 0 (baseState 2)) = 1 := by
  unfold expZ0 apply1
  rw [sum_pi_succ]
  simp [sum_pi_succ, sum_pi_zero, Fintype.sum_bool, Gate.m1]

theorem expZ0_apply1_x : expZ0 (apply1 (Gate.m1 .x) 0 (baseState 2)) = -1 := by
  unfold expZ0 apply1
  rw [sum_pi_succ]
  simp [sum_pi_succ, sum_pi_zero, Fintype.sum_bool, Gate.m1]

theorem expZ0_apply1_y : expZ0 (apply1 (Gate.m1 .y) 0 (baseState 2)) = -1 := by
  unfold expZ0 apply1
  rw [sum_pi_succ]
  simp [sum_pi_succ, sum_pi_zero, Fintype.sum_bool, Gate.m1]

theorem expZ0_apply1_z : expZ0 (apply1 (Gate.m1 .z) 0 (baseState 2)) = 1 := by
  unfold expZ0 apply1
  rw [sum_pi_succ]
  simp [sum_pi_succ, sum_pi_zero, Fintype.sum_bool, Gate.m1]

@[simp] theorem Amp.ofRat_re (q : ℚ) : (Amp.ofRat q).re = ⟨q, 0⟩ := rfl
@[simp] theorem Amp.ofRat_im (q : ℚ) : (Amp.ofRat q).im = 0 := rfl

theorem applyOp_one_wire (g : Gate) (hg : g.arity = 1) (q : ℕ) {n : ℕ} (ψ : StateVec n) :
    applyOp g [q] ψ = apply1 g.m1 q ψ := by
  rw [applyOp, if_pos hg]

theorem expZ0_trajState (s : ℚ) :
    expZ0 (trajState s) =
      if s < 7/10 then 1 else if s < 8/10 then -1 else if s < 9/10 then -1 else 1 := by
  unfold trajState pickBranch
  split_ifs with h1 h2 h3
  · rw [show branchGate 0 = Gate.idg from rfl, applyOp_one_wire Gate.idg rfl]
    exact expZ0_apply1_idg
  · rw [show branchGate 1 = Gate.x from rfl, applyOp_one_wire Gate.x rfl]
    exact expZ0_apply1_x
  · rw [show branchGate 2 = Gate.y from rfl, applyOp_one_wire Gate.y rfl]
    exact expZ0_apply1_y
  · rw [show branchGate 3 = Gate.z from rfl, applyOp_one_wire Gate.z rfl]
    exact expZ0_apply1_z

theorem ofRat_ne_zero {q : ℚ} (hq : q ≠ 0) : Amp.ofRat q ≠ 0 := by
  intro h
  apply hq
  exact congrArg (fun z : Amp => z.re.a) h

/-- The Monte Carlo average over the 2000 equidistributed status draws
evaluates exactly to 3/5. -/
theorem trajAvg_2000 : trajAvg 2000 = Amp.ofRat (3/5) := by
  have hval : ∀ j ∈ Finset.range 2000,
      expZ0 (trajState ((j : ℚ) / ((2000 : ℕ) : ℚ))) =
        (if j < 1400 then (1 : Amp) else if j < 1600 then -1 else
          if j < 1800 then -1 else 1) := by
    intro j _
    rw [expZ0_trajState]
    have c1 : ((j : ℚ) / ((2000 : ℕ) : ℚ) < 7/10) ↔ j < 1400 := by
      rw [div_lt_iff (by norm_num : (0 : ℚ) < ((2000 : ℕ) : ℚ))]
      rw [show (7/10 : ℚ) * ((2000 : ℕ) : ℚ) = ((1400 : ℕ) : ℚ) by norm_num]
      exact Nat.cast_lt
    have c2 : ((j : ℚ) / ((2000 : ℕ) : ℚ) < 8/10) ↔ j < 1600 := by
      rw [div_lt_iff (by norm_num : (0 : ℚ) < ((2000 : ℕ) : ℚ))]
      rw [show (8/10 : ℚ) * ((2000 : ℕ) : ℚ) = ((1600 : ℕ) : ℚ) by norm_num]
      exact Nat.cast_lt
    have c3 : ((j : ℚ) / ((2000 : ℕ) : ℚ) < 9/10) ↔ j < 1800 := by
      rw [div_lt_iff (by norm_num : (0 : ℚ) < ((2000 : ℕ) : ℚ))]
      rw [show (9/10 : ℚ) * ((2000 : ℕ) : ℚ) = ((1800 : ℕ) : ℚ) by norm_num]
      exact Nat.cast_lt
    simp only [c1, c2, c3]
  rw [trajAvg, Finset.sum_congr rfl hval, Finset.range_eq_Ico]
  rw [← Finset.sum_Ico_consecutive _ (show 0 ≤ 1400 by norm_num) (show 1400 ≤ 2000 by norm_num)]
  rw [← Finset.sum_Ico_consecutive _ (show 1400 ≤ 1600 by norm_num) (show 1600 ≤ 2000 by norm_num)]
  rw [← Finset.sum_Ico_consecutive _ (show 1600 ≤ 1800 by norm_num) (show 1800 ≤ 2000 by norm_num)]
  have b1 : (∑ j ∈ Finset.Ico 0 1400, (if j < 1400 then (1 : Amp) else if j < 1600 then -1 else
      if j < 1800 then -1 else 1)) = 1400 • (1 : Amp) := by
    rw [Finset.sum_congr rfl (fun j hj => if_pos (Finset.mem_Ico.mp hj).2)]
    rw [Finset.sum_const, Nat.card_Ico]
  have b2 : (∑ j ∈ Finset.Ico 1400 1600, (if j < 1400 then (1 : Amp) else if j < 1600 then -1
      else if j < 1800 then -1 else 1)) = 200 • (-1 : Amp) := by
    rw [Finset.sum_congr rfl (fun j hj => by
      rw [if_neg (Nat.not_lt.mpr (Finset.mem_Ico.mp hj).1),
        if_pos (Finset.mem_Ico.mp hj).2])]
    rw [Finset.sum_const, Nat.card_Ico]
  have b3 : (∑ j ∈ Finset.Ico 1600 1800, (if j < 1400 then (1 : Amp) else if j < 1600 then -1
      else if j < 1800 then -1 else 1)) = 200 • (-1 : Amp) := by
    rw [Finset.sum_congr rfl (fun j hj => by
      rw [if_neg (Nat.not_lt.mpr (le_trans (by norm_num) (Finset.mem_Ico.mp hj).1)),
        if_neg (Nat.not_lt.mpr (Finset.mem_Ico.mp hj).1),
        if_pos (Finset.mem_Ico.mp hj).2])]
    rw [Finset.sum_const, Nat.card_Ico]
  have b4 : (∑ j ∈ Finset.Ico 1800 2000, (if j < 1400 then (1 : Amp) else if j < 1600 then -1
      else if j < 1800 then -1 else 1)) = 200 • (1 : Amp) := by
    rw [Finset.sum_congr rfl (fun j hj => by
      rw [if_neg (Nat.not_lt.mpr (le_trans (by norm_num) (Finset.mem_Ico.mp hj).1)),
        if_neg (Nat.not_lt.mpr (le_trans (by norm_num) (Finset.mem_Ico.mp hj).1)),
        if_neg (Nat.not_lt.mpr (Finset.mem_Ico.mp hj).1)])]
    rw [Finset.sum_const, Nat.card_Ico]
  rw [b1, b2, b3, b4]
  have hsum : (1400 • (1 : Amp) + (200 • (-1 : Amp) + (200 • (-1 : Amp) + 200 • (1 : Amp))))
      = ((1200 : ℕ) : Amp) := by
    simp only [nsmul_eq_mul]
    push_cast
    ring_nf
  rw [hsum]
  have h2000 : Amp.ofRat ((2000 : ℕ) : ℚ) = ((2000 : ℕ) : Amp) := map_natCast Amp.ofRat 2000
  have h2000ne : Amp.ofRat ((2000 : ℕ) : ℚ) ≠ 0 := ofRat_ne_zero (by norm_num)
  rw [← div_eq_mul_inv, div_eq_iff h2000ne, h2000]
  rw [show ((1200 : ℕ) : Amp) = Amp.ofRat ((1200 : ℕ) : ℚ) from (map_natCast Amp.ofRat 1200).symm]
  rw [show ((2000 : ℕ) : Amp) = Amp.ofRat ((2000 : ℕ) : ℚ) from (map_natCast Amp.ofRat 2000).symm]
  rw [← map_mul]
  exact congrArg Amp.ofRat (by norm_num)

/-- The exact depolarizing channel gives ⟨Z₀⟩ = 3/5 on |00⟩. -/
theorem expZ0dm_depolGK : expZ0dm (depolGK 0 (baseDM 2)) = Amp.ofRat (3/5) := by
  have hsplit : expZ0dm (depolGK 0 (baseDM 2)) =
      Amp.ofRat (7/10) * expZ0dm (dm1 (Gate.m1 .idg) 0 (baseDM 2)) +
      Amp.ofRat (1/10) * expZ0dm (dm1 (Gate.m1 .x) 0 (baseDM 2)) +
      Amp.ofRat (1/10) * expZ0dm (dm1 (Gate.m1 .y) 0 (baseDM 2)) +
      Amp.ofRat (1/10) * expZ0dm (dm1 (Gate.m1 .z) 0 (baseDM 2)) := by
    unfold expZ0dm depolGK
    rw [show (∑ x : Fin 2 → Bool, (if x 0 then -1 else 1) *
        (Amp.ofRat (7/10) * dm1 (Gate.m1 .idg) 0 (baseDM 2) x x +
         Amp.ofRat (1/10) * dm1 (Gate.m1 .x) 0 (baseDM 2) x x +
         Amp.ofRat (1/10) * dm1 (Gate.m1 .y) 0 (baseDM 2) x x +
         Amp.ofRat (1/10) * dm1 (Gate.m1 .z) 0 (baseDM 2) x x))
        = ∑ x : Fin 2 → Bool,
        (Amp.ofRat (7/10) * ((if x 0 then -1 else 1) * dm1 (Gate.m1 .idg) 0 (baseDM 2) x x) +
         (Amp.ofRat (1/10) * ((if x 0 then -1 else 1) * dm1 (Gate.m1 .x) 0 (baseDM 2) x x) +
          (Amp.ofRat (1/10) * ((if x 0 then -1 else 1) * dm1 (Gate.m1 .y) 0 (baseDM 2) x x) +
           Amp.ofRat (1/10) * ((if x 0 then -1 else 1) * dm1 (Gate.m1 .z) 0 (baseDM 2) x x))))
      from Finset.sum_congr rfl fun x _ => by ring]
    rw [Finset.sum_add_distrib, Finset.sum_add_distrib, Finset.sum_add_distrib,
      ← Finset.mul_sum, ← Finset.mul_sum, ← Finset.mul_sum, ← Finset.mul_sum]
    ring
  rw [hsplit]
  rw [show baseDM 2 = pureDM (baseState 2) from rfl]
  rw [dm1_pureDM, dm1_pureDM, dm1_pureDM, dm1_pureDM,
    expZ0dm_pureDM, expZ0dm_pureDM, expZ0dm_pureDM, expZ0dm_pureDM,
    expZ0_apply1_idg, expZ0_apply1_x, expZ0_apply1_y, expZ0_apply1_z]
  rw [mul_one, mul_one, mul_neg_one]
  rw [← map_neg Amp.ofRat, ← map_add, ← map_add, ← map_add]
  exact congrArg Amp.ofRat (by norm_num)

/-! ## Vectorizing map and vectorized value-and-gradient -/

/-- Scalar expressions over rational parameters: the function class over
which the vectorizing-map and value-and-grad transforms are modelled. -/
inductive Expr
  | const (q : ℚ)
  | var (j : ℕ)
  | add (e1 e2 : Expr)
  | mul (e1 e2 : Expr)
  | neg (e : Expr)
deriving DecidableEq

/-- Un-batched evaluation of an expression on one parameter set. -/
def evalE : Expr → (ℕ → ℚ) → ℚ
  | .const q, _ => q
  | .var j, p => p j
  | .add e1 e2, p => evalE e1 p + evalE e2 p
  | .mul e1 e2, p => evalE e1 p * evalE e2 p
  | .neg e, p => -evalE e p

/-- Modelled from the spec: the vectorizing-map transform — the function
is executed once over batch-indexed arrays: constants broadcast along
the batch axis, parameter reads return whole arrays, and every primitive
operation acts pointwise on arrays (the tensorcircuit backend `vmap`
source is not part of this snapshot). -/
def vmapEval (k : ℕ) : Expr → (ℕ → Fin k → ℚ) → Fin k → ℚ
  | .const q, _ => fun _ => q
  | .var j, P => P j
  | .add e1 e2, P => fun i => vmapEval k e1 P i + vmapEval k e2 P i
  | .mul e1 e2, P => fun i => vmapEval k e1 P i * vmapEval k e2 P i
  | .neg e, P => fun i => -vmapEval k e P i

/-- Batched evaluation equals pointwise un-batched evaluation: the
vectorizing map introduces no cross-batch-element interaction. -/
theorem vmapEval_eq (k : ℕ) (e : Expr) (P : ℕ → Fin k → ℚ) (i : Fin k) :
    vmapEval k e P i = evalE e (fun j => P j i) := by
  induction e with
  | const q => rfl
  | var j => rfl
  | add e1 e2 ih1 ih2 => show vmapEval k e1 P i + vmapEval k e2 P i = _; rw [ih1, ih2]; rfl
  | mul e1 e2 ih1 ih2 => show vmapEval k e1 P i * vmapEval k e2 P i = _; rw [ih1, ih2]; rfl
  | neg e ih => show -vmapEval k e P i = _; rw [ih]; rfl

/-- Symbolic partial derivative with respect to parameter `j`. -/
def dE : Expr → ℕ → Expr
  | .const _, _ => .const 0
  | .var j', j => .const (if j' = j then 1 else 0)
  | .add e1 e2, j => .add (dE e1 j) (dE e2 j)
  | .mul e1 e2, j => .add (.mul (dE e1 j) e2) (.mul e1 (dE e2 j))
  | .neg e, j => .neg (dE e j)

/-- Substitute the first `p` parameters (the vectorized argument slot)
with the constants `x`; the remaining parameters (the differentiated
argument slot) are re-indexed from 0. -/
def substX (p : ℕ) : Expr → (ℕ → ℚ) → Expr
  | .const q, _ => .const q
  | .var j, x => if j < p then .const (x j) else .var (j - p)
  | .add e1 e2, x => .add (substX p e1 x) (substX p e2 x)
  | .mul e1 e2, x => .mul (substX p e1 x) (substX p e2 x)
  | .neg e, x => .neg (substX p e x)

/-- Interleave the vectorized argument `x` and the differentiated
argument `y` into one parameter set for `f(x, y)`. -/
def combine (p : ℕ) (x y : ℕ → ℚ) : ℕ → ℚ :=
  fun j => if j < p then x j else y (j - p)

/-- The summed batch objective Σᵢ f(xᵢ, ·), built as one expression of
the differentiated argument alone. -/
def sumExpr (p : ℕ) (f : Expr) {k : ℕ} (xs : Fin k → ℕ → ℚ) : Expr :=
  (List.ofFn fun i => substX p f (xs i)).foldr .add (.const 0)

/-- Per-element gradient of `f(x, ·)` at `y`, component `j`. -/
def gradY (p : ℕ) (f : Expr) (x y : ℕ → ℚ) (j : ℕ) : ℚ :=
  evalE (dE (substX p f x) j) y

/-- Modelled from the spec and the whitepaper: the vectorized
value-and-grad transform `vvag(f, argnums = y-slot, vectorized_argnums
= x-slot)`: the first output is the batch of values computed in one pass
by the vectorizing map; the second output is the reverse-mode gradient
of the summed objective Σᵢ f(xᵢ, y) with respect to the shared `y` (the
tensorcircuit `vectorized_value_and_grad` source is not part of this
snapshot). -/
def vvag (p : ℕ) (f : Expr) {k : ℕ} (xs : Fin k → ℕ → ℚ) (y : ℕ → ℚ) :
    (Fin k → ℚ) × (ℕ → ℚ) :=
  (vmapEval k f (fun j i => if j < p then xs i j else y (j - p)),
   fun j => evalE (dE (sumExpr p f xs) j) y)

theorem evalE_substX (p : ℕ) (f : Expr) (x y : ℕ → ℚ) :
    evalE (substX p f x) y = evalE f (combine p x y) := by
  induction f with
  | const q => rfl
  | var j =>
    show evalE (if j < p then .const (x j) else .var (j - p)) y = combine p x y j
    unfold combine
    split <;> rfl
  | add e1 e2 ih1 ih2 => show evalE _ y + evalE _ y = _; rw [ih1, ih2]; rfl
  | mul e1 e2 ih1 ih2 => show evalE _ y * evalE _ y = _; rw [ih1, ih2]; rfl
  | neg e ih => show -evalE _ y = _; rw [ih]; rfl

theorem evalE_dE_foldr (l : List Expr) (j : ℕ) (y : ℕ → ℚ) :
    evalE (dE (l.foldr .add (.const 0)) j) y = (l.map fun e => evalE (dE e j) y).sum := by
  induction l with
  | nil => rfl
  | cons e t ih =>
    show evalE (.add (dE e j) (dE (t.foldr .add (.const 0)) j)) y = _
    show evalE (dE e j) y + evalE (dE (t.foldr .add (.const 0)) j) y = _
    rw [ih]
    rfl

/-- The first vvag output is exactly the element-wise batch of values. -/
theorem vvag_fst (p : ℕ) (f : Expr) {k : ℕ} (xs : Fin k → ℕ → ℚ) (y : ℕ → ℚ) (i : Fin k) :
    (vvag p f xs y).1 i = evalE f (combine p (xs i) y) := by
  show vmapEval k f _ i = _
  rw [vmapEval_eq]
  rfl

/-- The second vvag output is the sum over the batch of the per-element
gradients. -/
theorem vvag_snd (p : ℕ) (f : Expr) {k : ℕ} (xs : Fin k → ℕ → ℚ) (y : ℕ → ℚ) (j : ℕ) :
    (vvag p f xs y).2 j = ∑ i : Fin k, gradY p f (xs i) y j := by
  show evalE (dE (sumExpr p f xs) j) y = _
  rw [sumExpr, evalE_dE_foldr, List.map_ofFn, List.sum_ofFn]
  rfl

/-! ## Remaining helper lemmas -/

theorem trDM_pureDM {n : ℕ} (ψ : StateVec n) : trDM (pureDM ψ) = normTotal ψ := rfl

theorem trDM_baseDM (n : ℕ) : trDM (baseDM n) = 1 := by
  rw [show baseDM n = pureDM (baseState n) from rfl, trDM_pureDM, normTotal_baseState]

theorem postselect_baseState (n q : ℕ) :
    postselect q false (baseState n) = baseState n := by
  funext x
  unfold postselect
  by_cases h : getB x q = false
  · rw [if_pos h]
  · rw [if_neg h]
    unfold baseState pointState
    rw [if_neg]
    · intro hx
      apply h
      rw [hx]
      unfold getB
      split <;> rfl
theorem projectDM_baseDM (n q : ℕ) :
    projectDM q false (baseDM n) = baseDM n := by
  funext x x'
  unfold projectDM
  by_cases h : getB x q = false ∧ getB x' q = false
  · rw [if_pos h]
  · rw [if_neg h]
    unfold baseDM pureDM baseState pointState
    rcases not_and_or.mp h with h1 | h1
    · rw [show (if x = fun _ : Fin n => false then (1 : Amp) else 0) = 0 from
        if_neg (fun hx => h1 (by rw [hx]; unfold getB; split <;> rfl))]
      rw [zero_mul]
    · rw [show (if x' = fun _ : Fin n => false then (1 : Amp) else 0) = 0 from
        if_neg (fun hx => h1 (by rw [hx]; unfold getB; split <;> rfl))]
      rw [Amp.conjA_zero, mul_zero]

theorem mapM_to_qir (ops : List Op) :
    (List.mapM (fun it : QirItem => (gateOfIR it.name it.params).map fun g => Op.mk g it.wires)
      (ops.map fun op => ⟨gateName op.g, op.wires, gateParams op.g⟩)) = some ops := by
  induction ops with
  | nil => rfl
  | cons op t ih =>
    rw [List.map_cons, List.mapM_cons]
    simp only [gateOfIR_gateName, Option.map_some, ih]
    rfl

theorem from_qir_to_qir (c : Circuit) : from_qir c.n (to_qir c) = some c := by
  obtain ⟨n, ops⟩ := c
  unfold from_qir to_qir
  rw [mapM_to_qir]
  rfl

/-- The concrete 3-term Pauli-string-sum Hamiltonian on 4 qubits used by
the spec's MPO round-trip property: X₀ − Z₀Z₁ + (1/2)·Z₂Z₃. -/
def ham3 : PauliSum 4 where
  m := 3
  w := fun t => if t = 0 then 1 else if t = 1 then -1 else 1/2
  str := fun t i =>
    if t = 0 then (if i = 0 then 1 else 0)
    else if t = 1 then (if (i : ℕ) < 2 then 3 else 0)
    else (if 2 ≤ (i : ℕ) then 3 else 0)

/-- The 4-qubit GHZ preparation circuit: Hadamard then a CNOT chain. -/
def ghz4 : List Op := [⟨.h, [0]⟩, ⟨.cnot, [0, 1]⟩, ⟨.cnot, [1, 2]⟩, ⟨.cnot, [2, 3]⟩]

instance decidableOpValid (n : ℕ) (op : Op) : Decidable (OpValid n op) := by
  unfold OpValid
  infer_instance

/-! ## Claim theorems -/

/-- C1: for the single-qubit depolarizing channel with px = py = pz =
0.1 applied to the 2-qubit |00⟩ state, the expectation of Z₀ computed by
the density-matrix engine's `general_kraus` (exact channel
ρ' = Σᵢ Kᵢ ρ Kᵢ†) equals the average of the same expectation over 2000
`unitary_kraus` trajectories driven by status values equidistributed in
[0,1) — here proved as an exact equality, hence within the statistical
tolerance 0.02. -/
theorem claim_C1_noise_equivalence :
    trajAvg 2000 = expZ0dm (depolGK 0 (baseDM 2)) :=
  trajAvg_2000.trans expZ0dm_depolGK.symm

/-- C2: sequentially sampling all n wires — fixing each wire's outcome
in turn via its marginal probability given the already-fixed outcomes —
assigns to every outcome exactly the Born-rule probability |amplitude|²
of the full state vector (an exact equality, hence within tolerance
1e-6), for every normalized state. -/
theorem claim_C2_sequential_sampling {n : ℕ} (ψ : StateVec n) (x : Fin n → Bool)
    (hψ : normTotal ψ = 1) : seqProb ψ x = Amp.nsq (ψ x) :=
  seqProb_eq_nsq ψ x hψ

/-- C2 witness: the 4-qubit Hadamard + CNOT (GHZ) circuit is normalized
and its sequential-sampling distribution matches |amplitude|² at the
all-zero outcome. -/
theorem claim_C2_sequential_sampling_witness :
    normTotal (runC ghz4 (baseState 4)) = 1 ∧
    seqProb (runC ghz4 (baseState 4)) (fun _ => false) =
      Amp.nsq (runC ghz4 (baseState 4) (fun _ => false)) := by
  have hval : ∀ op ∈ ghz4, OpValid 4 op := by decide
  have hn : normTotal (runC ghz4 (baseState 4)) = 1 := by
    rw [normTotal_runC ghz4 hval (baseState 4), normTotal_baseState]
  exact ⟨hn, claim_C2_sequential_sampling _ _ hn⟩

/-- C3: (i) any sequence of valid unitary gate applications keeps the
pure-state engine's squared norm at 1; (ii) the same on the
density-matrix engine keeps the trace at 1; (iii) a complete Kraus
channel applied via `general_kraus` keeps the trace at 1; (iv) after a
pure-state post-selection, dividing by the norm of the retained state
restores squared norm 1; (v) after a projective measurement on the
density-matrix engine, the renormalized state has trace 1. -/
theorem claim_C3_normalization :
    (∀ (n : ℕ) (ops : List Op) (ψ : StateVec n), (∀ op ∈ ops, OpValid n op) →
      normTotal ψ = 1 → normTotal (runC ops ψ) = 1)
    ∧ (∀ (n : ℕ) (ops : List Op) (rho : DMat n), (∀ op ∈ ops, OpValid n op) →
      trDM rho = 1 → trDM (runDM ops rho) = 1)
    ∧ (∀ (n q : ℕ) (Ks : List (Bool → Bool → Amp)) (rho : DMat n), q < n →
      KrausComplete Ks → trDM rho = 1 → trDM (general_kraus Ks q rho) = 1)
    ∧ (∀ (n q : ℕ) (b : Bool) (ψ : StateVec n) (r : Amp), r ≠ 0 →
      Amp.conjA r * r = normTotal (postselect q b ψ) →
      normTotal (renormPS r (postselect q b ψ)) = 1)
    ∧ (∀ (n q : ℕ) (b : Bool) (rho : DMat n), trDM (projectDM q b rho) ≠ 0 →
      trDM (measureDM q b rho) = 1) := by
  refine ⟨?_, ?_, ?_, ?_, ?_⟩
  · intro n ops ψ hv hψ
    rw [normTotal_runC ops hv ψ, hψ]
  · intro n ops rho hv hrho
    rw [trDM_runDM ops hv rho, hrho]
  · intro n q Ks rho hq hK hrho
    rw [trDM_general_kraus Ks hq hK rho, hrho]
  · intro n q b ψ r hr hr2
    exact normTotal_renorm_postselect q b ψ r hr hr2
  · intro n q b rho ht
    exact trDM_measureDM q b rho ht

/-- C3 witness: concrete instances of all five normalization clauses on
one- and two-qubit examples. -/
theorem claim_C3_normalization_witness :
    ((∀ op ∈ ghz4, OpValid 4 op) ∧ normTotal (baseState 4) = 1 ∧
      normTotal (runC ghz4 (baseState 4)) = 1)
    ∧ (trDM (baseDM 4) = 1 ∧ trDM (runDM ghz4 (baseDM 4)) = 1)
    ∧ (KrausComplete [Gate.m1 .h] ∧ trDM (general_kraus [Gate.m1 .h] 0 (baseDM 1)) = 1)
    ∧ ((1 : Amp) ≠ 0 ∧
      Amp.conjA 1 * 1 = normTotal (postselect 0 false (baseState 1)) ∧
      normTotal (renormPS 1 (postselect 0 false (baseState 1))) = 1)
    ∧ (trDM (projectDM 0 false (baseDM 1)) ≠ 0 ∧
      trDM (measureDM 0 false (baseDM 1)) = 1) := by
  have hval : ∀ op ∈ ghz4, OpValid 4 op := by decide
  have hK : KrausComplete [Gate.m1 .h] := KrausComplete_singleton (unitary_m1 Gate.h rfl)
  have hps : Amp.conjA 1 * 1 = normTotal (postselect 0 false (baseState 1)) := by
    rw [postselect_baseState, normTotal_baseState]
    simp
  have hpj : trDM (projectDM 0 false (baseDM 1)) ≠ 0 := by
    rw [projectDM_baseDM, trDM_baseDM]
    exact one_ne_zero
  refine ⟨⟨hval, normTotal_baseState 4, ?_⟩, ⟨trDM_baseDM 4, ?_⟩, ⟨hK, ?_⟩,
    ⟨one_ne_zero, hps, ?_⟩, ⟨hpj, ?_⟩⟩
  · exact claim_C3_normalization.1 4 ghz4 (baseState 4) hval (normTotal_baseState 4)
  · exact claim_C3_normalization.2.1 4 ghz4 (baseDM 4) hval (trDM_baseDM 4)
  · exact claim_C3_normalization.2.2.1 1 0 [Gate.m1 .h] (baseDM 1) (by norm_num) hK
      (trDM_baseDM 1)
  · exact claim_C3_normalization.2.2.2.1 1 0 false (baseState 1) 1 one_ne_zero hps
  · exact claim_C3_normalization.2.2.2.2 1 0 false (baseDM 1) hpj

/-- C4: the vectorizing-map transform applied to a scalar function over
a batch of k = 8 parameter sets returns, at every batch position, the
value of the un-batched function on that parameter set alone — batching
introduces no cross-batch-element interaction. -/
theorem claim_C4_vmap_transparency (e : Expr) (P : ℕ → Fin 8 → ℚ) (i : Fin 8) :
    vmapEval 8 e P i = evalE e (fun j => P j i) :=
  vmapEval_eq 8 e P i

/-- C5: converting a Pauli-string-sum Hamiltonian to MPO form and
contracting back yields the directly-constructed dense matrix exactly
(hence within tolerance 1e-8), for every Pauli sum — in particular for
the 3-term sum on 4 qubits `ham3`. -/
theorem claim_C5_mpo_roundtrip :
    (∀ (n : ℕ) (H : PauliSum n) (xo xi : Fin n → Bool),
      (toMPO H).contract xo xi = denseOf H xo xi) ∧
    (∀ xo xi : Fin 4 → Bool, (toMPO ham3).contract xo xi = denseOf ham3 xo xi) :=
  ⟨fun _ H xo xi => contract_toMPO H xo xi, fun xo xi => contract_toMPO ham3 xo xi⟩

/-- C6: serializing any circuit to the intermediate representation (one
record per gate: name, wires, parameters) and replaying the records in
order reconstructs the identical circuit, hence the same state-evolution
outcome. -/
theorem claim_C6_qir_roundtrip (c : Circuit) : from_qir c.n (to_qir c) = some c :=
  from_qir_to_qir c

/-- C7: circuit composition is associative: over a common wire count,
both association orders of `append` succeed with the same gate sequence,
and the fully contracted states coincide exactly. -/
theorem claim_C7_append_assoc (A B C : Circuit) (hAB : A.n = B.n) (hBC : B.n = C.n) :
    ((A.append B).bind fun ab => ab.append C) = ((B.append C).bind fun bc => A.append bc) ∧
    ((A.append B).bind fun ab => ab.append C) = .ok ⟨A.n, A.ops ++ B.ops ++ C.ops⟩ ∧
    Circuit.stateOf ⟨A.n, A.ops ++ B.ops ++ C.ops⟩ =
      Circuit.stateOf ⟨A.n, A.ops ++ (B.ops ++ C.ops)⟩ := by
  have h1 : A.append B = .ok ⟨A.n, A.ops ++ B.ops⟩ := by
    rw [Circuit.append, if_pos hAB]
  have h2 : B.append C = .ok ⟨B.n, B.ops ++ C.ops⟩ := by
    rw [Circuit.append, if_pos hBC]
  have h3 : (Circuit.mk A.n (A.ops ++ B.ops)).append C = .ok ⟨A.n, A.ops ++ B.ops ++ C.ops⟩ := by
    rw [Circuit.append, if_pos (hAB.trans hBC)]
  have h4 : A.append ⟨B.n, B.ops ++ C.ops⟩ = .ok ⟨A.n, A.ops ++ (B.ops ++ C.ops)⟩ := by
    rw [Circuit.append, if_pos hAB]
  refine ⟨?_, ?_, ?_⟩
  · rw [h1, h2]
    show (Circuit.mk A.n (A.ops ++ B.ops)).append C = A.append ⟨B.n, B.ops ++ C.ops⟩
    rw [h3, h4, List.append_assoc]
  · rw [h1]
    exact h3
  · rw [List.append_assoc]

/-- C7 witness: the three association clauses at concrete 2-qubit
circuits. -/
theorem claim_C7_append_assoc_witness :
    (Circuit.mk 2 [⟨.h, [0]⟩]).n = (Circuit.mk 2 [⟨.x, [1]⟩]).n ∧
    (Circuit.mk 2 [⟨.x, [1]⟩]).n = (Circuit.mk 2 [⟨.cnot, [0, 1]⟩]).n ∧
    (((Circuit.mk 2 [⟨.h, [0]⟩]).append (Circuit.mk 2 [⟨.x, [1]⟩])).bind
        fun ab => ab.append (Circuit.mk 2 [⟨.cnot, [0, 1]⟩])) =
      (((Circuit.mk 2 [⟨.x, [1]⟩]).append (Circuit.mk 2 [⟨.cnot, [0, 1]⟩])).bind
        fun bc => (Circuit.mk 2 [⟨.h, [0]⟩]).append bc) := by
  refine ⟨rfl, rfl, ?_⟩
  exact (claim_C7_append_assoc (Circuit.mk 2 [⟨.h, [0]⟩]) (Circuit.mk 2 [⟨.x, [1]⟩])
    (Circuit.mk 2 [⟨.cnot, [0, 1]⟩]) rfl rfl).1

/-- C8: `apply_gate` returns an Index error exactly when a wire is out
of range `[0, n)` or duplicated, a Rank error when the wire indices are
well-formed but the gate's leg count mismatches the wire count, and
otherwise records the gate; composing circuits of different wire counts
fails with a composition error.  All errors are returned directly to the
caller; nothing is retried or mutated on the error paths. -/
theorem claim_C8_error_handling :
    (∀ (c : Circuit) (g : Gate) (ws : List ℕ), ¬ ((∀ q ∈ ws, q < c.n) ∧ ws.Nodup) →
      apply_gate c g ws = .error .indexError) ∧
    (∀ (c : Circuit) (g : Gate) (ws : List ℕ), (∀ q ∈ ws, q < c.n) → ws.Nodup →
      g.arity ≠ ws.length → apply_gate c g ws = .error .rankError) ∧
    (∀ (c : Circuit) (g : Gate) (ws : List ℕ), (∀ q ∈ ws, q < c.n) → ws.Nodup →
      g.arity = ws.length → apply_gate c g ws = .ok ⟨c.n, c.ops ++ [⟨g, ws⟩]⟩) ∧
    (∀ c1 c2 : Circuit, c1.n ≠ c2.n → c1.append c2 = .error .composeError) := by
  refine ⟨?_, ?_, ?_, ?_⟩
  · intro c g ws hbad
    rw [apply_gate, if_pos hbad]
  · intro c g ws hw hnd hr
    rw [apply_gate, if_neg (not_not_intro ⟨hw, hnd⟩), if_pos hr]
  · intro c g ws hw hnd hr
    rw [apply_gate, if_neg (not_not_intro ⟨hw, hnd⟩), if_neg (not_not_intro hr)]
  · intro c1 c2 hne
    rw [Circuit.append, if_neg hne]

/-- C8 witness: an out-of-range wire, a duplicated wire, a rank
mismatch, a successful application, and a wire-count-mismatched
composition, all on concrete circuits. -/
theorem claim_C8_error_handling_witness :
    apply_gate ⟨1, []⟩ .h [5] = .error .indexError ∧
    apply_gate ⟨2, []⟩ .cnot [1, 1] = .error .indexError ∧
    apply_gate ⟨2, []⟩ .h [0, 1] = .error .rankError ∧
    apply_gate ⟨2, []⟩ .h [0] = .ok ⟨2, [⟨.h, [0]⟩]⟩ ∧
    (Circuit.mk 1 []).append ⟨2, []⟩ = .error .composeError := by
  refine ⟨?_, ?_, ?_, ?_, ?_⟩
  · exact claim_C8_error_handling.1 ⟨1, []⟩ .h [5] (by decide)
  · exact claim_C8_error_handling.1 ⟨2, []⟩ .cnot [1, 1] (by decide)
  · exact claim_C8_error_handling.2.1 ⟨2, []⟩ .h [0, 1] (by decide) (by decide) (by decide)
  · exact claim_C8_error_handling.2.2.1 ⟨2, []⟩ .h [0] (by decide) (by decide) (by decide)
  · exact claim_C8_error_handling.2.2.2 ⟨1, []⟩ ⟨2, []⟩ (by decide)

/-- C9: the contracted dense vector is lazy and cached — a cached read
returns the cache without recontracting; every mutating gate application
clears the cache, so any state read performed after a gate application
returns the contraction of the new gate sequence, never a stale value;
reads keep the cache valid. -/
theorem claim_C9_cache_invalidation :
    (∀ (n : ℕ) (c : CCircuit n) (g : Gate) (ws : List ℕ), (applyGateC c g ws).cache = none) ∧
    (∀ (n : ℕ) (c : CCircuit n) (g : Gate) (ws : List ℕ),
      (stateC (applyGateC c g ws)).1 = contractC n (c.ops ++ [⟨g, ws⟩])) ∧
    (∀ (n : ℕ) (c : CCircuit n), ValidCache c →
      (stateC c).1 = contractC n c.ops ∧ ValidCache (stateC c).2) ∧
    (∀ (n : ℕ) (c : CCircuit n) (ψ : StateVec n), c.cache = some ψ → stateC c = (ψ, c)) := by
  refine ⟨?_, ?_, ?_, ?_⟩
  · intro n c g ws
    rfl
  · intro n c g ws
    rfl
  · intro n c hvc
    match hc : c.cache with
    | some ψ =>
      have hψ := hvc ψ hc
      constructor
      · show (stateC c).1 = _
        rw [stateC, hc, hψ]
      · show ValidCache (stateC c).2
        rw [stateC, hc]
        exact hvc
    | none =>
      constructor
      · show (stateC c).1 = _
        rw [stateC, hc]
      · show ValidCache (stateC c).2
        rw [stateC, hc]
        intro ψ hψ
        cases hψ
        rfl
  · intro n c ψ hc
    rw [stateC, hc]

/-- C9 witness: the clauses with hypotheses, instantiated on a concrete
one-qubit cached circuit. -/
theorem claim_C9_cache_invalidation_witness :
    (ValidCache (CCircuit.mk (n := 1) [] none) ∧
      (stateC (CCircuit.mk (n := 1) [] none)).1 = contractC 1 []) ∧
    ((CCircuit.mk (n := 1) [] (some (contractC 1 []))).cache = some (contractC 1 []) ∧
      stateC (CCircuit.mk (n := 1) [] (some (contractC 1 []))) =
        (contractC 1 [], CCircuit.mk (n := 1) [] (some (contractC 1 [])))) := by
  have hvc : ValidCache (CCircuit.mk (n := 1) [] none) := fun ψ h => Option.noConfusion h
  refine ⟨⟨hvc, ?_⟩, ⟨rfl, ?_⟩⟩
  · exact (claim_C9_cache_invalidation.2.2.1 1 (CCircuit.mk [] none) hvc).1
  · exact claim_C9_cache_invalidation.2.2.2 1 (CCircuit.mk [] (some (contractC 1 [])))
      (contractC 1 []) rfl

/-- C10: the vectorized value-and-grad transform with distinct
vectorized and differentiated argument slots returns, first, the vector
of per-element values f(xᵢ, y) and, second, the gradient with respect to
the shared argument y — which equals the sum over the batch of the
per-element gradients ∇_y f(xᵢ, y), with the shape of y. -/
theorem claim_C10_vvag (p : ℕ) (f : Expr) (k : ℕ) (xs : Fin k → ℕ → ℚ) (y : ℕ → ℚ) :
    (∀ i, (vvag p f xs y).1 i = evalE f (combine p (xs i) y)) ∧
    (∀ j, (vvag p f xs y).2 j = ∑ i : Fin k, gradY p f (xs i) y j) :=
  ⟨vvag_fst p f xs y, vvag_snd p f xs y⟩
